import Mathlib

/-!
# gmail2slack: the polling run of `mail.go`

A shallow embedding of `main` in `mail.go`: the watermark arithmetic of the
message loop (lines 148-173), the template extraction on the decoded body
(lines 180-203), the notifier call (lines 204-216) and the final write of
`time.txt` (line 219).

Go strings are byte sequences, so bodies, lines and markers are lists of
bytes; the Japanese marker literals of the source are taken in their UTF-8
encoding, as the Go compiler stores them.
-/

namespace Gmail2Slack

/-! ## Go strings -/

/-- A Go `string`: an immutable sequence of bytes. -/
abbrev Bytes := List UInt8

/-- The bytes of a Go string literal: the UTF-8 encoding of its characters. -/
def str (s : String) : Bytes := s.data.flatMap String.utf8EncodeChar

/-- The line break `"\n"` as a byte. -/
def nl : UInt8 := 10

/-- Whether `s` begins with `substr` (the comparison `strings.Contains` makes
at one offset). -/
def beginsWith : Bytes → Bytes → Bool
  | _, [] => true
  | [], _ :: _ => false
  | a :: s, b :: p => a == b && beginsWith s p

/-- The Go call `strings.Contains(s, substr)`: `substr` occurs in `s` at some
offset (always true for the empty `substr`). -/
def Contains : Bytes → Bytes → Bool
  | [], substr => beginsWith [] substr
  | c :: s, substr => beginsWith (c :: s) substr || Contains s substr

/-- The Go call `strings.Split(s, "\n")`: the pieces of `s` between line-break
bytes; a string without a line break (the empty one too) gives one piece. -/
def Split : Bytes → List Bytes
  | [] => [[]]
  | c :: s =>
    if c = nl then [] :: Split s
    else
      match Split s with
      | [] => [[c]]
      | line :: lines => (c :: line) :: lines

/-! ## The markers of lines 184-195 -/

/-- Marker M1 of line 184 (request to change the pickup time). -/
def markerPickupChange : Bytes := str "お荷物の受け取り日時変更のご依頼"

/-- Sub-marker of line 186 (desired pickup time). -/
def subPickupTime : Bytes := str "■お受け取りご希望日時"

/-- Sub-marker of line 187 (slip number). -/
def subSlipNumber : Bytes := str "■伝票番号"

/-- Marker M2 of line 191 (delivery notice). -/
def markerDeliveryNotice : Bytes := str "お荷物のお届けについてお知らせします。"

/-- Sub-marker of line 195 (expected delivery date and time). -/
def subArrivalDate : Bytes := str "■お届け予定日時"

/-- The constant `arrivalDateLinesNum` of line 192. -/
def arrivalDateLinesNum : Nat := 4

/-! ## Template extraction (lines 181-203) -/

/-- The condition of lines 186-187 on one line. -/
def isPickupLine (line : Bytes) : Bool :=
  Contains line subPickupTime || Contains line subSlipNumber

/-- One iteration of the loop of lines 185-190 on `slackMessage`. -/
def pickupStep (slackMessage : Bytes) (line : Bytes) : Bytes :=
  if isPickupLine line then slackMessage ++ (line ++ [nl]) else slackMessage

/-- The loop of lines 185-190, started from the empty `slackMessage`. -/
def pickupLoop (lines : List Bytes) : Bytes :=
  lines.foldl pickupStep []

/-- One iteration of the loop of lines 194-202 on the pair
(`slackMessage`, `arrivalDateLinesCount`). The counter is a Go `int`; it grows
by at most one per line, so it is taken as a natural number. -/
def arrivalStep (st : Bytes × Nat) (line : Bytes) : Bytes × Nat :=
  if Contains line subArrivalDate then
    (st.1 ++ (line ++ [nl]), st.2 + 1)
  else if st.2 > 0 ∧ st.2 < arrivalDateLinesNum then
    (st.1 ++ (line ++ [nl]), st.2 + 1)
  else st

/-- The loop of lines 194-202, started from the empty `slackMessage` and the
counter 0; the result is the final `slackMessage`. -/
def arrivalLoop (lines : List Bytes) : Bytes :=
  (lines.foldl arrivalStep ([], 0)).1

/-- Lines 181-203: the value of `slackMessage` computed from the decoded body
`message`. -/
def slackMessage (message : Bytes) : Bytes :=
  let lines := Split message
  if Contains message markerPickupChange then pickupLoop lines
  else if Contains message markerDeliveryNotice then arrivalLoop lines
  else []

/-! ## Time values and int64 arithmetic -/

/-- The value a Go `int64` holds after an operation whose exact result is `x`:
two's-complement wrap-around into `[-2^63, 2^63)`. -/
def wrap64 (x : Int) : Int := (x + 2 ^ 63) % 2 ^ 64 - 2 ^ 63

/-- A Go `time.Time` as a point in time: whole seconds since the Unix epoch
and the nanoseconds within that second (`0 ≤ nsec < 10^9`). -/
structure Time where
  sec : Int
  nsec : Nat
deriving DecidableEq

/-- The Go method `t.Unix()`: the whole seconds since the epoch. -/
def Time.Unix (t : Time) : Int := t.sec

/-- The Go function `time.Unix(sec, nsec)`; `nsec` outside `[0, 10^9)` is
carried into the seconds. -/
def Unix (sec nsec : Int) : Time :=
  ⟨sec + nsec / 1000000000, (nsec % 1000000000).toNat⟩

/-- The point in time in nanoseconds since the epoch, as an exact integer;
comparing two `Time` values as points in time compares these. -/
def Time.instant (t : Time) : Int := t.sec * 1000000000 + t.nsec

/-! ## The run (lines 148-219) -/

/-- The fields of a `gmail.Message` that the loop reads: `InternalDate`
(int64 milliseconds since the epoch) and `Payload.Body.Data`. -/
structure Message where
  InternalDate : Int
  Data : Bytes
deriving DecidableEq

/-- What the outside world answers for one entry of `mr.Messages`: `get` is
the result of `Messages.Get(userName, m.Id).Do()` (`none` when `err != nil`),
`postOk` tells whether `http.Post` returns without error when it is called for
this message. -/
structure Fetched where
  get : Option Message
  postOk : Bool
deriving DecidableEq

/-- What a run does that is visible outside the watermark arithmetic. -/
inductive Event
  /-- Line 177: the decode error is printed. -/
  | decodeError (mmr : Message)
  /-- Lines 180-203 run on `message = string(b64)`. -/
  | extraction (mmr : Message) (message : Bytes)
  /-- Line 211: `http.Post` is called with `text` as the payload text. -/
  | post (mmr : Message) (text : Bytes)
deriving DecidableEq

/-- How the loop of lines 158-218 is left. -/
inductive Exit
  /-- The range is exhausted or `break` was taken (line 168). -/
  | finished
  /-- The call `log.Fatalf` of line 161 ends the process. -/
  | getFailed
  /-- The call `panic(err)` of line 213 ends the process. -/
  | postFailed
deriving DecidableEq

/-- The outcome of one iteration of the loop body (lines 159-217). -/
inductive Step
  /-- The statement `break` of line 168. -/
  | stop
  /-- The process ends inside the iteration, after `events`. -/
  | fatal (events : List Event) (exit : Exit)
  /-- The iteration ends normally with the new value of `newFromTime`. -/
  | next (newFromTime : Time) (events : List Event)
deriving DecidableEq

/-- Line 164 and the test of line 167: `timeDiff > 0`. -/
def isStale (fromTime : Time) (mmr : Message) : Bool :=
  decide (wrap64 (wrap64 (fromTime.Unix * 1000) - mmr.InternalDate) > 0)

/-- Lines 170-172: the value of `newFromTime` after a message that is not
stale. -/
def advance (newFromTime : Time) (mmr : Message) : Time :=
  if wrap64 (mmr.InternalDate - wrap64 (newFromTime.Unix * 1000)) > 0 then
    Unix (mmr.InternalDate.tdiv 1000) 0
  else newFromTime

/-- The events of lines 175-182 for one message: the decode error, when there
is one, is printed and the extraction then runs on the bytes that
`DecodeString` returned. -/
def decodeEvents (mmr : Message) (decoded : Bytes × Bool) : List Event :=
  (if decoded.2 then [Event.decodeError mmr] else []) ++ [Event.extraction mmr decoded.1]

/-- The loop body, lines 159-217. `DecodeString` is
`base64.URLEncoding.DecodeString`: it returns the decoded bytes (those decoded
before the error, when there is one) and whether `err != nil`. -/
def iteration (DecodeString : Bytes → Bytes × Bool) (fromTime newFromTime : Time)
    (m : Fetched) : Step :=
  match m.get with
  | none => Step.fatal [] Exit.getFailed
  | some mmr =>
    if isStale fromTime mmr then Step.stop
    else
      let newFromTime := advance newFromTime mmr
      let decoded := DecodeString mmr.Data
      let text := slackMessage decoded.1
      if text ≠ [] then
        if m.postOk then
          Step.next newFromTime (decodeEvents mmr decoded ++ [Event.post mmr text])
        else
          Step.fatal (decodeEvents mmr decoded ++ [Event.post mmr text]) Exit.postFailed
      else Step.next newFromTime (decodeEvents mmr decoded)

/-- The state in which the loop of lines 158-218 is left. -/
structure LoopResult where
  newFromTime : Time
  events : List Event
  exit : Exit
deriving DecidableEq

/-- The loop of lines 158-218 over `mr.Messages`, entered with the current
value of `newFromTime`. -/
def mainLoop (DecodeString : Bytes → Bytes × Bool) (fromTime : Time) :
    Time → List Fetched → LoopResult
  | newFromTime, [] => ⟨newFromTime, [], Exit.finished⟩
  | newFromTime, m :: rest =>
    match iteration DecodeString fromTime newFromTime m with
    | Step.stop => ⟨newFromTime, [], Exit.finished⟩
    | Step.fatal events exit => ⟨newFromTime, events, exit⟩
    | Step.next newFromTime1 events =>
      let r := mainLoop DecodeString fromTime newFromTime1 rest
      ⟨r.newFromTime, events ++ r.events, r.exit⟩

/-- What one run of `main` from line 148 on leaves behind: its events and the
time written to `time.txt` by line 219 (`none` when the process ended before
that line). -/
structure RunResult where
  events : List Event
  written : Option Time
deriving DecidableEq

/-- Lines 148-219. `fromTime` is the watermark loaded by lines 133-146 and
`list` the result of `Messages.List(...).Do(...)`: `none` when `err != nil`
(line 155 then ends the process), otherwise `mr.Messages` with the answers of
the outside world for each entry. Line 219 does not inspect the error of
`ioutil.WriteFile`; the write is taken to succeed, and the time written is the
time the next run loads (the text format of `time.txt` is not modelled). -/
def main (DecodeString : Bytes → Bytes × Bool) (fromTime : Time)
    (list : Option (List Fetched)) : RunResult :=
  match list with
  | none => ⟨[], none⟩
  | some messages =>
    let r := mainLoop DecodeString fromTime fromTime messages
    match r.exit with
    | Exit.finished => ⟨r.events, some r.newFromTime⟩
    | _ => ⟨r.events, none⟩

/-- The content of `time.txt` after a run that started with `fromTime` in
it. -/
def persisted (fromTime : Time) (r : RunResult) : Time :=
  r.written.getD fromTime

/-! ## Vocabulary for the statements -/

/-- A delivery timestamp (milliseconds) as a point in time in nanoseconds. -/
def Message.instant (mmr : Message) : Int := mmr.InternalDate * 1000000

/-- The exact integer `x` is a value of type int64. -/
def fitsInt64 (x : Int) : Prop := -2 ^ 63 ≤ x ∧ x < 2 ^ 63

instance (x : Int) : Decidable (fitsInt64 x) := by
  unfold fitsInt64; infer_instance

/-- The messages of a page whose fetch succeeds. -/
def fetchedMessages (page : List Fetched) : List Message :=
  page.filterMap Fetched.get

/-- The arithmetic of line 164 is exact on this page: `fromTime.Unix()*1000`
and its difference with every delivery timestamp are int64 values. -/
def TimeDiffExact (fromTime : Time) (page : List Fetched) : Prop :=
  fitsInt64 (fromTime.Unix * 1000) ∧
    ∀ mmr ∈ fetchedMessages page, fitsInt64 (fromTime.Unix * 1000 - mmr.InternalDate)

instance (fromTime : Time) (page : List Fetched) : Decidable (TimeDiffExact fromTime page) := by
  unfold TimeDiffExact; infer_instance

/-- Delivery timestamps are non-negative int64 values and no int64 operation
of lines 164 and 170 overflows on this page. -/
def NoOverflow (fromTime : Time) (page : List Fetched) : Prop :=
  fitsInt64 (fromTime.Unix * 1000) ∧
    ∀ mmr ∈ fetchedMessages page,
      0 ≤ mmr.InternalDate ∧ fitsInt64 mmr.InternalDate ∧
        fitsInt64 (fromTime.Unix * 1000 - mmr.InternalDate) ∧
        fitsInt64 (mmr.InternalDate - fromTime.Unix * 1000)

instance (fromTime : Time) (page : List Fetched) : Decidable (NoOverflow fromTime page) := by
  unfold NoOverflow; infer_instance

/-- The whole-second watermark in milliseconds and every delivery timestamp of
the page lie within `±2^62`, far inside the int64 range. -/
def WithinRange (fromTime : Time) (page : List Fetched) : Prop :=
  (-2 ^ 62 ≤ fromTime.Unix * 1000 ∧ fromTime.Unix * 1000 ≤ 2 ^ 62) ∧
    ∀ mmr ∈ fetchedMessages page, -2 ^ 62 ≤ mmr.InternalDate ∧ mmr.InternalDate ≤ 2 ^ 62

instance (fromTime : Time) (page : List Fetched) : Decidable (WithinRange fromTime page) := by
  unfold WithinRange; infer_instance

/-- The loop goes past this entry: its fetch succeeds, the message is not
stale, and the post succeeds in case the extraction is not empty. -/
def passes (DecodeString : Bytes → Bytes × Bool) (fromTime : Time) (m : Fetched) : Bool :=
  match m.get with
  | none => false
  | some mmr =>
    !isStale fromTime mmr && (slackMessage (DecodeString mmr.Data).1 == [] || m.postOk)

/-- The messages passed to extraction, with the body each was extracted from,
in the order of the events. -/
def extracted : List Event → List (Message × Bytes)
  | [] => []
  | Event.extraction mmr message :: events => (mmr, message) :: extracted events
  | _ :: events => extracted events

/-- The messages the notifier was called for, with the text posted, in the
order of the events. -/
def posted : List Event → List (Message × Bytes)
  | [] => []
  | Event.post mmr text :: events => (mmr, text) :: posted events
  | _ :: events => posted events

/-- What extraction receives for the fetched messages of `page`, were each of
them passed to it: the message and the bytes `DecodeString` returns for it. -/
def extractionInputs (DecodeString : Bytes → Bytes × Bool) (page : List Fetched) :
    List (Message × Bytes) :=
  (fetchedMessages page).map fun mmr => (mmr, (DecodeString mmr.Data).1)

/-- The largest of `sec` and the whole seconds `floor(d/1000)` of the delivery
timestamps `d` of `messages`. -/
def maxSeconds (sec : Int) (messages : List Message) : Int :=
  messages.foldl (fun acc mmr => max acc (mmr.InternalDate / 1000)) sec

/-- The events of the entries of a stretch of the page that the loop goes
past (`passes`). -/
def passedEvents (DecodeString : Bytes → Bytes × Bool) (page : List Fetched) : List Event :=
  (fetchedMessages page).flatMap fun mmr =>
    decodeEvents mmr (DecodeString mmr.Data) ++
      (if slackMessage (DecodeString mmr.Data).1 ≠ [] then
        [Event.post mmr (slackMessage (DecodeString mmr.Data).1)] else [])

/-- The value of `newFromTime` after a stretch of the page that the loop goes
past. -/
def advanceAll (newFromTime : Time) (page : List Fetched) : Time :=
  (fetchedMessages page).foldl advance newFromTime

/-- The entry's fetch succeeds, its delivery timestamp is not below the
whole second of `fromTime`, and the post succeeds in case the extraction is
not empty. -/
def deliveredFresh (DecodeString : Bytes → Bytes × Bool) (fromTime : Time) (m : Fetched) :
    Bool :=
  match m.get with
  | none => false
  | some mmr =>
    decide (fromTime.Unix * 1000 ≤ mmr.InternalDate) &&
      (slackMessage (DecodeString mmr.Data).1 == [] || m.postOk)

/-- What `http.Post` returns at line 211: a transport error (`err != nil`) or
a response with its HTTP status code. -/
inductive PostResult
  /-- The call returns `err != nil`. -/
  | transportError
  /-- The call returns a response with this status code and `err == nil`. -/
  | response (status : Nat)
deriving DecidableEq

/-- The test of line 212 on the result of line 211: the response is discarded
(`_, err = http.Post(...)`), only `err` is inspected. -/
def PostResult.errIsNil : PostResult → Bool
  | PostResult.transportError => false
  | PostResult.response _ => true

/-- The notifier did not take the post: a transport error, or a response whose
status code is not in `200..299`. -/
def PostResult.failed : PostResult → Bool
  | PostResult.transportError => true
  | PostResult.response status => !(decide (200 ≤ status) && decide (status < 300))

/-- The entry of the page for a message whose fetch gives `get` and whose post
is answered by `r`. -/
def answered (get : Option Message) (r : PostResult) : Fetched :=
  ⟨get, r.errIsNil⟩

/-! ## The two variants in the words of the specification

Second definitions, written from section 4.3 of the specification and not from
the loops of the source, for comparison with `slackMessage`. -/

/-- Variant A in the words of the specification: every line containing the
sub-marker "desired pickup time" or the sub-marker "tracking number", in
encounter order, each with a trailing line break; no limit on their number. -/
def specVariantA (lines : List Bytes) : Bytes :=
  (lines.filter fun line =>
    Contains line subPickupTime || Contains line subSlipNumber).flatMap (· ++ [nl])

/-- Variant B in the words of the specification, from a given value of the
counter: a line containing the sub-marker "expected delivery date/time" is
appended and counted; any other line is appended and counted while
`0 < counter < 4`; otherwise the line is passed over. -/
def specVariantB : List Bytes → Nat → Bytes
  | [], _ => []
  | line :: lines, counter =>
    if Contains line subArrivalDate then line ++ [nl] ++ specVariantB lines (counter + 1)
    else if 0 < counter ∧ counter < 4 then line ++ [nl] ++ specVariantB lines (counter + 1)
    else specVariantB lines counter

/-! ## A decoder for concrete inputs

The theorems hold for every `DecodeString`. Where a concrete run is evaluated,
the decoder is this model of `base64.URLEncoding.DecodeString` of the Go
standard library: the alphabet `A-Z a-z 0-9 - _` with `=` padding, carriage
returns and line breaks ignored; on malformed input it returns the bytes of
the quanta decoded so far together with an error. -/

/-- The 6-bit value of a byte of the URL-safe alphabet. -/
def sextet (c : UInt8) : Option Nat :=
  if 65 ≤ c ∧ c ≤ 90 then some (c.toNat - 65)
  else if 97 ≤ c ∧ c ≤ 122 then some (c.toNat - 97 + 26)
  else if 48 ≤ c ∧ c ≤ 57 then some (c.toNat - 48 + 52)
  else if c = 45 then some 62
  else if c = 95 then some 63
  else none

/-- The 24-bit group made of four 6-bit values. -/
def quantum (x y z w : Nat) : Nat := x * 262144 + y * 4096 + z * 64 + w

/-- Decoding of input without carriage returns and line breaks, four bytes at
a time; the flag tells whether the input is malformed. -/
def decodeQuanta : Bytes → Bytes × Bool
  | [] => ([], false)
  | a :: b :: c :: d :: rest =>
    match sextet a, sextet b with
    | some x, some y =>
      match sextet c with
      | some z =>
        match sextet d with
        | some w =>
          let v := quantum x y z w
          let r := decodeQuanta rest
          (UInt8.ofNat (v / 65536) :: UInt8.ofNat (v / 256) :: UInt8.ofNat v :: r.1, r.2)
        | none =>
          if d = 61 then
            ([UInt8.ofNat (quantum x y z 0 / 65536), UInt8.ofNat (quantum x y z 0 / 256)],
              !rest.isEmpty)
          else ([], true)
      | none =>
        if c = 61 ∧ d = 61 then ([UInt8.ofNat (quantum x y 0 0 / 65536)], !rest.isEmpty)
        else ([], true)
    | _, _ => ([], true)
  | _ => ([], true)

/-- The model of `base64.URLEncoding.DecodeString`. -/
def urlDecodeString (s : Bytes) : Bytes × Bool :=
  decodeQuanta (s.filter fun c => c ≠ 10 ∧ c ≠ 13)

/-! ## Concrete inputs -/

/-- A pickup-time-change mail: marker M1, two lines with a sub-marker. -/
def pickupBody : Bytes :=
  str "お荷物の受け取り日時変更のご依頼\nhello\n■お受け取りご希望日時: 10/5 14:00\nnoise\n■伝票番号: 123-456"

/-- The URL-safe base64 encoding of `pickupBody`. -/
def pickupData : Bytes :=
  str "44GK6I2354mp44Gu5Y-X44GR5Y-W44KK5pel5pmC5aSJ5pu044Gu44GU5L6d6aC8CmhlbGxvCuKWoOOBiuWPl-OBkeWPluOCiuOBlOW4jOacm-aXpeaZgjogMTAvNSAxNDowMApub2lzZQrilqDkvJ3npajnlarlj7c6IDEyMy00NTY="

/-- The text extracted from `pickupBody`. -/
def pickupText : Bytes :=
  str "■お受け取りご希望日時: 10/5 14:00\n■伝票番号: 123-456\n"

/-- The encoding `pickupData` followed by a byte outside the alphabet. -/
def corruptData : Bytes := pickupData ++ str "!"

/-- A delivery notice: marker M2, one line with the sub-marker at index 2 and
four lines after it. -/
def noticeBody : Bytes :=
  str "お荷物のお届けについてお知らせします。\nx\n■お届け予定日時: 10/6\nline2\nline3\nline4\nline5"

/-- The URL-safe base64 encoding of `noticeBody`. -/
def noticeData : Bytes :=
  str "44GK6I2354mp44Gu44GK5bGK44GR44Gr44Gk44GE44Gm44GK55-l44KJ44Gb44GX44G-44GZ44CCCngK4pag44GK5bGK44GR5LqI5a6a5pel5pmCOiAxMC82CmxpbmUyCmxpbmUzCmxpbmU0CmxpbmU1"

/-- The URL-safe base64 encoding of `hello`, a body with neither marker. -/
def helloData : Bytes := str "aGVsbG8="

/-- A delivery notice in which five lines contain the sub-marker. -/
def repeatedNoticeBody : Bytes :=
  str "お荷物のお届けについてお知らせします。\n■お届け予定日時1\n■お届け予定日時2\n■お届け予定日時3\n■お届け予定日時4\n■お届け予定日時5\nx"

/-- A body with both markers and no line with a sub-marker of M1. -/
def bothMarkersBody : Bytes :=
  str "お荷物の受け取り日時変更のご依頼\nお荷物のお届けについてお知らせします。\n■お届け予定日時: 10/6\nline2"

/-- A body with both markers, one line with a sub-marker of M1 and one with
the sub-marker of M2. -/
def bothMarkersPickupBody : Bytes :=
  str "お荷物の受け取り日時変更のご依頼\nお荷物のお届けについてお知らせします。\n■伝票番号: 123-456\n■お届け予定日時: 10/6\nline2"

/-- A body with marker M1 only, whose last line contains a sub-marker of M1
and the sub-marker of M2. -/
def onlyPickupBody : Bytes :=
  str "お荷物の受け取り日時変更のご依頼\n■伝票番号 ■お届け予定日時: 10/6"

/-- A body with marker M1 only and no line with any sub-marker. -/
def bareMarkerBody : Bytes :=
  str "お荷物の受け取り日時変更のご依頼\nhello"

/-! ## Go strings: what `Split` and `Contains` compute -/

theorem Split_ne_nil (s : Bytes) : Split s ≠ [] := by
  induction s with
  | nil => simp [Split]
  | cons c s ih =>
    unfold Split
    split
    · simp
    · split <;> simp

theorem nl_not_mem_of_mem_Split (s : Bytes) : ∀ line ∈ Split s, nl ∉ line := by
  induction s with
  | nil => simp [Split]
  | cons c s ih =>
    unfold Split
    split
    · intro line hl
      simp only [List.mem_cons] at hl
      rcases hl with rfl | hl
      · simp
      · exact ih line hl
    · rename_i hc
      split
      · simp; exact fun h => hc h.symm
      · rename_i l ls heq
        rw [heq] at ih
        intro line hl
        simp only [List.mem_cons] at hl
        rcases hl with rfl | hl
        · simp only [List.mem_cons, not_or]
          exact ⟨fun h => hc h.symm, ih l (by simp)⟩
        · exact ih line (by simp [hl])

theorem intercalate_Split (s : Bytes) : [nl].intercalate (Split s) = s := by
  induction s with
  | nil => simp [Split, List.intercalate]
  | cons c s ih =>
    unfold Split
    split
    · rename_i hc
      have := Split_ne_nil s
      cases h : Split s with
      | nil => exact absurd h this
      | cons l ls =>
        rw [h] at ih
        simp [List.intercalate, List.intersperse] at ih ⊢
        simp [hc, ih]
    · split
      · rename_i h; exact absurd h (Split_ne_nil s)
      · rename_i l ls h
        rw [h] at ih
        cases ls with
        | nil => simp [List.intercalate, List.intersperse] at ih ⊢; exact ih
        | cons l2 ls => simp [List.intercalate, List.intersperse] at ih ⊢; exact ih

theorem beginsWith_iff (s p : Bytes) : beginsWith s p = true ↔ p <+: s := by
  induction p generalizing s with
  | nil => simp [beginsWith]
  | cons b p ih =>
    cases s with
    | nil => simp [beginsWith]
    | cons a s =>
      simp only [beginsWith, Bool.and_eq_true, beq_iff_eq, ih, List.cons_prefix_cons]
      constructor <;> rintro ⟨h1, h2⟩ <;> exact ⟨h1.symm, h2⟩

theorem Contains_iff (s substr : Bytes) : Contains s substr = true ↔ substr <:+: s := by
  induction s with
  | nil =>
    simp only [Contains, beginsWith_iff]
    constructor
    · exact fun h => h.isInfix
    · intro h
      have := List.eq_nil_of_infix_nil h
      simp [this]
  | cons c s ih =>
    simp only [Contains, Bool.or_eq_true, beginsWith_iff, ih, List.infix_cons_iff]

/-! ## The two extraction loops -/

theorem foldl_pickupStep (lines : List Bytes) (acc : Bytes) :
    lines.foldl pickupStep acc = acc ++ (lines.filter isPickupLine).flatMap (· ++ [nl]) := by
  induction lines generalizing acc with
  | nil => simp
  | cons line lines ih =>
    rw [List.foldl_cons, ih]
    unfold pickupStep
    by_cases h : isPickupLine line = true
    · simp [h, List.filter_cons]
    · simp [h, List.filter_cons]

theorem arrivalStep_trigger (st : Bytes × Nat) (line : Bytes)
    (h : Contains line subArrivalDate = true) :
    arrivalStep st line = (st.1 ++ (line ++ [nl]), st.2 + 1) := by
  simp [arrivalStep, h]

theorem arrivalStep_window (st : Bytes × Nat) (line : Bytes)
    (h0 : 0 < st.2) (h4 : st.2 < arrivalDateLinesNum) :
    arrivalStep st line = (st.1 ++ (line ++ [nl]), st.2 + 1) := by
  unfold arrivalStep
  split
  · rfl
  · simp [h0, h4]

theorem arrivalStep_idle (st : Bytes × Nat) (line : Bytes)
    (h : Contains line subArrivalDate = false)
    (hc : st.2 = 0 ∨ arrivalDateLinesNum ≤ st.2) :
    arrivalStep st line = st := by
  unfold arrivalStep
  simp only [h, Bool.false_eq_true, if_false]
  split
  · omega
  · rfl

theorem foldl_arrivalStep_idle (lines : List Bytes) (st : Bytes × Nat)
    (h : ∀ line ∈ lines, Contains line subArrivalDate = false)
    (hc : st.2 = 0 ∨ arrivalDateLinesNum ≤ st.2) :
    lines.foldl arrivalStep st = st := by
  induction lines with
  | nil => rfl
  | cons line lines ih =>
    rw [List.foldl_cons, arrivalStep_idle st line (h line (by simp)) hc]
    exact ih fun l hl => h l (by simp [hl])

theorem foldl_arrivalStep_window (lines : List Bytes) (st : Bytes × Nat)
    (h1 : 1 ≤ st.2) (h4 : st.2 ≤ arrivalDateLinesNum)
    (h : ∀ line ∈ lines.drop (arrivalDateLinesNum - st.2),
      Contains line subArrivalDate = false) :
    (lines.foldl arrivalStep st).1 =
      st.1 ++ (lines.take (arrivalDateLinesNum - st.2)).flatMap (· ++ [nl]) := by
  induction lines generalizing st with
  | nil => simp
  | cons line lines ih =>
    rw [List.foldl_cons]
    by_cases hlt : st.2 < arrivalDateLinesNum
    · rw [arrivalStep_window st line (by omega) hlt]
      have hsub : arrivalDateLinesNum - st.2 = (arrivalDateLinesNum - (st.2 + 1)) + 1 := by omega
      rw [hsub] at h ⊢
      rw [ih _ (by simp) (by simpa using hlt) (by simpa using h)]
      simp
    · have heq : arrivalDateLinesNum - st.2 = 0 := by omega
      rw [heq] at h ⊢
      rw [arrivalStep_idle st line (h line (by simp)) (Or.inr (by omega))]
      rw [foldl_arrivalStep_idle lines st (fun l hl => h l (by simp [hl])) (Or.inr (by omega))]
      simp

theorem foldl_arrivalStep_spec (lines : List Bytes) (st : Bytes × Nat) :
    (lines.foldl arrivalStep st).1 = st.1 ++ specVariantB lines st.2 := by
  induction lines generalizing st with
  | nil => simp [specVariantB]
  | cons line lines ih =>
    rw [List.foldl_cons, ih]
    by_cases ht : Contains line subArrivalDate = true
    · rw [arrivalStep_trigger st line ht]
      simp [specVariantB, ht]
    · simp only [Bool.not_eq_true] at ht
      by_cases hw : 0 < st.2 ∧ st.2 < 4
      · rw [arrivalStep_window st line hw.1 (by simpa [arrivalDateLinesNum] using hw.2)]
        simp [specVariantB, ht, hw]
      · rw [arrivalStep_idle st line ht (by unfold arrivalDateLinesNum; omega)]
        simp [specVariantB, ht, hw]

theorem count_nl_append_line (acc line : Bytes) (h : nl ∉ line) :
    (acc ++ (line ++ [nl])).count nl = acc.count nl + 1 := by
  simp [List.count_append, List.count_eq_zero_of_not_mem h]

theorem foldl_arrivalStep_count (lines : List Bytes) (st : Bytes × Nat)
    (h : ∀ line ∈ lines, nl ∉ line) :
    (lines.foldl arrivalStep st).1.count nl + st.2 =
      st.1.count nl + (lines.foldl arrivalStep st).2 := by
  induction lines generalizing st with
  | nil => simp [Nat.add_comm]
  | cons line lines ih =>
    rw [List.foldl_cons]
    have ih1 := ih (arrivalStep st line) fun l hl => h l (by simp [hl])
    have hline := count_nl_append_line st.1 line (h line (by simp))
    by_cases ht : Contains line subArrivalDate = true
    · rw [arrivalStep_trigger st line ht] at ih1 ⊢
      simp only [] at ih1
      omega
    · simp only [Bool.not_eq_true] at ht
      by_cases hw : 0 < st.2 ∧ st.2 < arrivalDateLinesNum
      · rw [arrivalStep_window st line hw.1 hw.2] at ih1 ⊢
        simp only [] at ih1
        omega
      · rw [arrivalStep_idle st line ht (by omega)] at ih1 ⊢
        exact ih1

theorem foldl_arrivalStep_bound (lines : List Bytes) (st : Bytes × Nat) :
    (lines.foldl arrivalStep st).2 ≤
      (lines.filter fun line => Contains line subArrivalDate).length +
        (if st.2 = 0 then 3 else max st.2 arrivalDateLinesNum) := by
  induction lines generalizing st with
  | nil => simp; split <;> omega
  | cons line lines ih =>
    rw [List.foldl_cons]
    have ih1 := ih (arrivalStep st line)
    by_cases ht : Contains line subArrivalDate = true
    · rw [arrivalStep_trigger st line ht] at ih1 ⊢
      simp only [List.filter_cons, ht, if_true, List.length_cons]
      simp only [Nat.add_one_ne_zero, if_false] at ih1
      unfold arrivalDateLinesNum at ih1 ⊢
      split <;> omega
    · simp only [Bool.not_eq_true] at ht
      simp only [List.filter_cons, ht, Bool.false_eq_true, if_false]
      by_cases hw : 0 < st.2 ∧ st.2 < arrivalDateLinesNum
      · rw [arrivalStep_window st line hw.1 hw.2] at ih1 ⊢
        simp only [Nat.add_one_ne_zero, if_false] at ih1
        unfold arrivalDateLinesNum at ih1 hw ⊢
        split <;> omega
      · rw [arrivalStep_idle st line ht (by omega)] at ih1 ⊢
        exact ih1

/-! ## Claims on the extraction -/

/-- C7. Variant A filter: for a decoded body that contains marker M1, the
extracted text is the concatenation, in body order and without any limit, of
every line of the body that contains one of the two sub-markers, each followed
by a line break; it is empty exactly when no line contains a sub-marker. -/
theorem pickup_extraction_is_filter (message : Bytes)
    (hM1 : Contains message markerPickupChange = true) :
    slackMessage message =
        ((Split message).filter fun line =>
          Contains line subPickupTime || Contains line subSlipNumber).flatMap (· ++ [nl]) ∧
      (slackMessage message = [] ↔
        ∀ line ∈ Split message,
          Contains line subPickupTime = false ∧ Contains line subSlipNumber = false) := by
  have heq : slackMessage message =
      ((Split message).filter isPickupLine).flatMap (· ++ [nl]) := by
    simp only [slackMessage, hM1, if_true, pickupLoop, foldl_pickupStep, List.nil_append]
  refine ⟨heq, ?_⟩
  rw [heq]
  constructor
  · intro h line hl
    by_contra hc
    have hp : isPickupLine line = true := by
      unfold isPickupLine
      cases h1 : Contains line subPickupTime <;> cases h2 : Contains line subSlipNumber <;>
        simp_all
    have hmem : line ∈ (Split message).filter isPickupLine := List.mem_filter.mpr ⟨hl, hp⟩
    have : line ++ [nl] = [] := by
      have := List.flatMap_eq_nil_iff.mp h line hmem
      exact this
    simp at this
  · intro h
    have : (Split message).filter isPickupLine = [] := by
      rw [List.filter_eq_nil_iff]
      intro line hl
      have := h line hl
      simp [isPickupLine, this.1, this.2]
    rw [this]
    rfl

/-- Witness of C7 on a body with marker M1 and two sub-marker lines. -/
theorem pickup_extraction_is_filter_witness :
    Contains pickupBody markerPickupChange = true ∧
      slackMessage pickupBody = pickupText ∧
      slackMessage pickupBody =
        ((Split pickupBody).filter fun line =>
          Contains line subPickupTime || Contains line subSlipNumber).flatMap (· ++ [nl]) :=
  ⟨by decide, by decide, (pickup_extraction_is_filter pickupBody (by decide)).1⟩

/-- C5, refuted as stated: a delivery notice in which five lines contain the
sub-marker yields five lines, the fifth appended when the counter is 4. -/
theorem arrival_cap_counterexample :
    Contains repeatedNoticeBody markerDeliveryNotice = true ∧
      Contains repeatedNoticeBody markerPickupChange = false ∧
      slackMessage repeatedNoticeBody =
        str "■お届け予定日時1\n■お届け予定日時2\n■お届け予定日時3\n■お届け予定日時4\n■お届け予定日時5\n" ∧
      (slackMessage repeatedNoticeBody).count nl = 5 ∧
      arrivalStep ([], 4) (str "■お届け予定日時5") = (str "■お届け予定日時5\n", 5) := by
  decide

/-- C5, amended. For a decoded body with marker M2 and not M1: once the
counter has reached 4, a line without the sub-marker is never appended (a line
with the sub-marker always is); the extracted text has at most 3 lines more
than the body has lines with the sub-marker, hence at most 4 lines when at
most one line of the body contains the sub-marker. -/
theorem arrival_cap (message : Bytes)
    (hM2 : Contains message markerDeliveryNotice = true)
    (hM1 : Contains message markerPickupChange = false) :
    (∀ (st : Bytes × Nat) (line : Bytes), arrivalDateLinesNum ≤ st.2 →
        Contains line subArrivalDate = false → arrivalStep st line = st) ∧
      (∀ (st : Bytes × Nat) (line : Bytes), Contains line subArrivalDate = true →
        arrivalStep st line = (st.1 ++ (line ++ [nl]), st.2 + 1)) ∧
      (slackMessage message).count nl ≤
        ((Split message).filter fun line => Contains line subArrivalDate).length + 3 ∧
      (((Split message).filter fun line => Contains line subArrivalDate).length ≤ 1 →
        (slackMessage message).count nl ≤ 4) := by
  have heq : slackMessage message = arrivalLoop (Split message) := by
    simp [slackMessage, hM1, hM2]
  have hcount := foldl_arrivalStep_count (Split message) ([], 0) (nl_not_mem_of_mem_Split message)
  have hbound := foldl_arrivalStep_bound (Split message) ([], 0)
  simp only [List.count_nil, Nat.add_zero, Nat.zero_add, if_true] at hcount hbound
  have hle : (slackMessage message).count nl ≤
      ((Split message).filter fun line => Contains line subArrivalDate).length + 3 := by
    rw [heq, arrivalLoop, hcount]
    exact hbound
  refine ⟨fun st line h4 hn => arrivalStep_idle st line hn (Or.inr h4),
    fun st line ht => arrivalStep_trigger st line ht, hle, fun h1 => ?_⟩
  omega

/-- Witness of amended C5 on a notice with one sub-marker line. -/
theorem arrival_cap_witness :
    Contains noticeBody markerDeliveryNotice = true ∧
      Contains noticeBody markerPickupChange = false ∧
      (slackMessage noticeBody).count nl ≤ 4 :=
  ⟨by decide, by decide,
    (arrival_cap noticeBody (by decide) (by decide)).2.2.2 (by decide)⟩

/-- C6. Variant B window: for a decoded body with marker M2 and not M1 whose
first line containing the sub-marker is at index `i` and which has no line
containing it after index `i+3`, the extracted text is exactly the lines at
indices `i .. i+3` that exist, in order, each followed by a line break. -/
theorem arrival_window (message : Bytes) (i : Nat) (line : Bytes)
    (hM2 : Contains message markerDeliveryNotice = true)
    (hM1 : Contains message markerPickupChange = false)
    (hline : (Split message)[i]? = some line)
    (htrigger : Contains line subArrivalDate = true)
    (hfirst : ∀ l ∈ (Split message).take i, Contains l subArrivalDate = false)
    (hlast : ∀ l ∈ (Split message).drop (i + 4), Contains l subArrivalDate = false) :
    slackMessage message = (((Split message).drop i).take 4).flatMap (· ++ [nl]) := by
  have heq : slackMessage message = arrivalLoop (Split message) := by
    simp [slackMessage, hM1, hM2]
  rw [heq, arrivalLoop]
  have hi : i < (Split message).length := by
    rcases List.getElem?_eq_some_iff.mp hline with ⟨h, _⟩
    exact h
  have hdrop : (Split message).drop i = line :: (Split message).drop (i + 1) := by
    rw [List.drop_eq_getElem_cons hi]
    congr 1
    rcases List.getElem?_eq_some_iff.mp hline with ⟨_, h⟩
    exact h
  have hsplit : Split message = (Split message).take i ++ line :: (Split message).drop (i + 1) := by
    rw [← hdrop, List.take_append_drop]
  rw [hdrop]
  conv_lhs => rw [hsplit]
  rw [List.foldl_append, foldl_arrivalStep_idle _ _ hfirst (Or.inl rfl), List.foldl_cons,
    arrivalStep_trigger _ _ htrigger]
  rw [foldl_arrivalStep_window _ _ (by simp) (by simp [arrivalDateLinesNum])]
  · simp [arrivalDateLinesNum]
  · simpa [arrivalDateLinesNum, Nat.add_assoc] using hlast

/-- Witness of C6 on the notice with the sub-marker line at index 2. -/
theorem arrival_window_witness :
    slackMessage noticeBody = str "■お届け予定日時: 10/6\nline2\nline3\nline4\n" ∧
      slackMessage noticeBody = (((Split noticeBody).drop 2).take 4).flatMap (· ++ [nl]) :=
  ⟨by decide,
    arrival_window noticeBody 2 (str "■お届け予定日時: 10/6") (by decide) (by decide) (by decide)
      (by decide) (by decide) (by decide)⟩

/-! ## int64 arithmetic of the loop -/

theorem wrap64_of_fits (x : Int) (h : fitsInt64 x) : wrap64 x = x := by
  unfold fitsInt64 at h
  unfold wrap64
  have : (x + 2 ^ 63) % 2 ^ 64 = x + 2 ^ 63 := Int.emod_eq_of_lt (by omega) (by omega)
  omega

theorem tdiv_thousand (d : Int) :
    d.tdiv 1000 = if 0 ≤ d then d / 1000 else -((-d) / 1000) := by
  split
  · rename_i h
    exact Int.tdiv_eq_ediv h (by decide)
  · rename_i h
    have h1 : d = -(-d) := by omega
    conv_lhs => rw [h1, Int.neg_tdiv]
    rw [Int.tdiv_eq_ediv (by omega) (by decide)]

theorem isStale_of_exact (fromTime : Time) (mmr : Message)
    (h1 : fitsInt64 (fromTime.Unix * 1000))
    (h2 : fitsInt64 (fromTime.Unix * 1000 - mmr.InternalDate)) :
    isStale fromTime mmr = decide (mmr.InternalDate < fromTime.Unix * 1000) := by
  unfold isStale
  rw [wrap64_of_fits _ h1, wrap64_of_fits _ h2]
  by_cases h : mmr.InternalDate < fromTime.Unix * 1000
  · simp [h]
  · simp [h]

theorem advance_cases (newFromTime : Time) (mmr : Message) :
    advance newFromTime mmr = newFromTime ∨
      advance newFromTime mmr = ⟨mmr.InternalDate.tdiv 1000, 0⟩ := by
  unfold advance
  split
  · right; simp [Unix]
  · left; rfl

theorem advance_of_exact (newFromTime : Time) (mmr : Message)
    (h1 : fitsInt64 (newFromTime.Unix * 1000))
    (h2 : fitsInt64 (mmr.InternalDate - newFromTime.Unix * 1000)) :
    advance newFromTime mmr =
      if newFromTime.Unix * 1000 < mmr.InternalDate then ⟨mmr.InternalDate.tdiv 1000, 0⟩
      else newFromTime := by
  unfold advance
  rw [wrap64_of_fits _ h1, wrap64_of_fits _ h2]
  by_cases h : newFromTime.Unix * 1000 < mmr.InternalDate
  · rw [if_pos (by omega), if_pos h]; simp [Unix]
  · rw [if_neg (by omega), if_neg h]

/-! ## One iteration and the loop -/

theorem iteration_get_failed (DecodeString : Bytes → Bytes × Bool) (fromTime newFromTime : Time)
    (m : Fetched) (h : m.get = none) :
    iteration DecodeString fromTime newFromTime m = Step.fatal [] Exit.getFailed := by
  simp [iteration, h]

theorem iteration_stale (DecodeString : Bytes → Bytes × Bool) (fromTime newFromTime : Time)
    (m : Fetched) (mmr : Message) (h : m.get = some mmr) (hs : isStale fromTime mmr = true) :
    iteration DecodeString fromTime newFromTime m = Step.stop := by
  simp [iteration, h, hs]

theorem iteration_no_match (DecodeString : Bytes → Bytes × Bool) (fromTime newFromTime : Time)
    (m : Fetched) (mmr : Message) (h : m.get = some mmr) (hs : isStale fromTime mmr = false)
    (ht : slackMessage (DecodeString mmr.Data).1 = []) :
    iteration DecodeString fromTime newFromTime m =
      Step.next (advance newFromTime mmr) (decodeEvents mmr (DecodeString mmr.Data)) := by
  simp [iteration, h, hs, ht]

theorem iteration_posted (DecodeString : Bytes → Bytes × Bool) (fromTime newFromTime : Time)
    (m : Fetched) (mmr : Message) (h : m.get = some mmr) (hs : isStale fromTime mmr = false)
    (ht : slackMessage (DecodeString mmr.Data).1 ≠ []) (hp : m.postOk = true) :
    iteration DecodeString fromTime newFromTime m =
      Step.next (advance newFromTime mmr)
        (decodeEvents mmr (DecodeString mmr.Data) ++
          [Event.post mmr (slackMessage (DecodeString mmr.Data).1)]) := by
  simp [iteration, h, hs, ht, hp]

theorem iteration_post_failed (DecodeString : Bytes → Bytes × Bool) (fromTime newFromTime : Time)
    (m : Fetched) (mmr : Message) (h : m.get = some mmr) (hs : isStale fromTime mmr = false)
    (ht : slackMessage (DecodeString mmr.Data).1 ≠ []) (hp : m.postOk = false) :
    iteration DecodeString fromTime newFromTime m =
      Step.fatal
        (decodeEvents mmr (DecodeString mmr.Data) ++
          [Event.post mmr (slackMessage (DecodeString mmr.Data).1)]) Exit.postFailed := by
  simp [iteration, h, hs, ht, hp]

theorem iteration_of_passes (DecodeString : Bytes → Bytes × Bool) (fromTime newFromTime : Time)
    (m : Fetched) (h : passes DecodeString fromTime m = true) :
    ∃ mmr, m.get = some mmr ∧ isStale fromTime mmr = false ∧
      iteration DecodeString fromTime newFromTime m =
        Step.next (advance newFromTime mmr) (passedEvents DecodeString [m]) := by
  unfold passes at h
  cases hg : m.get with
  | none => simp [hg] at h
  | some mmr =>
    simp only [hg, Bool.and_eq_true, Bool.not_eq_true', Bool.or_eq_true, beq_iff_eq] at h
    refine ⟨mmr, rfl, h.1, ?_⟩
    by_cases ht : slackMessage (DecodeString mmr.Data).1 = []
    · rw [iteration_no_match _ _ _ _ _ hg h.1 ht]
      simp [passedEvents, fetchedMessages, hg, ht]
    · rw [iteration_posted _ _ _ _ _ hg h.1 ht (h.2.resolve_left ht)]
      simp [passedEvents, fetchedMessages, hg, ht]

theorem fetchedMessages_append (p q : List Fetched) :
    fetchedMessages (p ++ q) = fetchedMessages p ++ fetchedMessages q := by
  simp [fetchedMessages, List.filterMap_append]

theorem fetchedMessages_cons_some (m : Fetched) (mmr : Message) (page : List Fetched)
    (h : m.get = some mmr) : fetchedMessages (m :: page) = mmr :: fetchedMessages page := by
  simp [fetchedMessages, List.filterMap_cons, h]

theorem passedEvents_cons (DecodeString : Bytes → Bytes × Bool) (m : Fetched)
    (page : List Fetched) :
    passedEvents DecodeString (m :: page) =
      passedEvents DecodeString [m] ++ passedEvents DecodeString page := by
  cases hg : m.get with
  | none => simp [passedEvents, fetchedMessages, List.filterMap_cons, hg]
  | some mmr => simp [passedEvents, fetchedMessages, List.filterMap_cons, hg]

theorem mainLoop_append_of_passes (DecodeString : Bytes → Bytes × Bool) (fromTime : Time)
    (pre rest : List Fetched) (h : ∀ m ∈ pre, passes DecodeString fromTime m = true)
    (newFromTime : Time) :
    mainLoop DecodeString fromTime newFromTime (pre ++ rest) =
      ⟨(mainLoop DecodeString fromTime (advanceAll newFromTime pre) rest).newFromTime,
        passedEvents DecodeString pre ++
          (mainLoop DecodeString fromTime (advanceAll newFromTime pre) rest).events,
        (mainLoop DecodeString fromTime (advanceAll newFromTime pre) rest).exit⟩ := by
  induction pre generalizing newFromTime with
  | nil => simp [advanceAll, passedEvents, fetchedMessages]
  | cons m pre ih =>
    obtain ⟨mmr, hg, _, hit⟩ :=
      iteration_of_passes DecodeString fromTime newFromTime m (h m (by simp))
    have ih1 := ih (fun x hx => h x (by simp [hx])) (advance newFromTime mmr)
    have hadv : advanceAll newFromTime (m :: pre) = advanceAll (advance newFromTime mmr) pre := by
      simp [advanceAll, fetchedMessages_cons_some m mmr pre hg]
    rw [List.cons_append, mainLoop, hit]
    simp only []
    rw [ih1, hadv, passedEvents_cons DecodeString m pre, List.append_assoc]

/-! ## Reading the events -/

theorem extracted_append (p q : List Event) : extracted (p ++ q) = extracted p ++ extracted q := by
  induction p with
  | nil => rfl
  | cons e p ih => cases e <;> simp [extracted, ih]

theorem posted_append (p q : List Event) : posted (p ++ q) = posted p ++ posted q := by
  induction p with
  | nil => rfl
  | cons e p ih => cases e <;> simp [posted, ih]

theorem extracted_decodeEvents (mmr : Message) (decoded : Bytes × Bool) :
    extracted (decodeEvents mmr decoded) = [(mmr, decoded.1)] := by
  unfold decodeEvents
  cases decoded.2 <;> simp [extracted]

theorem posted_decodeEvents (mmr : Message) (decoded : Bytes × Bool) :
    posted (decodeEvents mmr decoded) = [] := by
  unfold decodeEvents
  cases decoded.2 <;> simp [posted]

theorem extracted_passedEvents (DecodeString : Bytes → Bytes × Bool) (page : List Fetched) :
    extracted (passedEvents DecodeString page) = extractionInputs DecodeString page := by
  induction page with
  | nil => rfl
  | cons m page ih =>
    rw [passedEvents_cons, extracted_append, ih]
    cases hg : m.get with
    | none => simp [passedEvents, extractionInputs, fetchedMessages, hg, extracted]
    | some mmr =>
      simp only [passedEvents, extractionInputs, fetchedMessages, List.filterMap_cons, hg,
        List.filterMap_nil, List.flatMap_cons, List.flatMap_nil, List.append_nil, List.map_cons,
        extracted_append, extracted_decodeEvents]
      split <;> simp [extracted]

/-! ## What an iteration can have done -/

theorem iteration_next_inv (DecodeString : Bytes → Bytes × Bool) (fromTime newFromTime : Time)
    (m : Fetched) (newFromTime1 : Time) (events : List Event)
    (h : iteration DecodeString fromTime newFromTime m = Step.next newFromTime1 events) :
    ∃ mmr, m.get = some mmr ∧ isStale fromTime mmr = false ∧
      newFromTime1 = advance newFromTime mmr ∧
      extracted events = [(mmr, (DecodeString mmr.Data).1)] ∧
      ∀ p ∈ posted events,
        p = (mmr, slackMessage (DecodeString mmr.Data).1) ∧
          slackMessage (DecodeString mmr.Data).1 ≠ [] := by
  cases hg : m.get with
  | none => rw [iteration_get_failed _ _ _ _ hg] at h; cases h
  | some mmr =>
    cases hs : isStale fromTime mmr with
    | true => rw [iteration_stale _ _ _ _ _ hg hs] at h; cases h
    | false =>
      refine ⟨mmr, rfl, hs, ?_⟩
      by_cases ht : slackMessage (DecodeString mmr.Data).1 = []
      · rw [iteration_no_match _ _ _ _ _ hg hs ht] at h
        injection h with h1 h2
        subst h1 h2
        simp [extracted_decodeEvents, posted_decodeEvents]
      · cases hp : m.postOk with
        | false => rw [iteration_post_failed _ _ _ _ _ hg hs ht hp] at h; cases h
        | true =>
          rw [iteration_posted _ _ _ _ _ hg hs ht hp] at h
          injection h with h1 h2
          subst h1 h2
          simp [extracted_append, posted_append, extracted_decodeEvents, posted_decodeEvents,
            extracted, posted, ht]

theorem iteration_fatal_inv (DecodeString : Bytes → Bytes × Bool) (fromTime newFromTime : Time)
    (m : Fetched) (events : List Event) (exit : Exit)
    (h : iteration DecodeString fromTime newFromTime m = Step.fatal events exit) :
    exit ≠ Exit.finished ∧
      (events = [] ∨
        ∃ mmr, m.get = some mmr ∧ isStale fromTime mmr = false ∧
          extracted events = [(mmr, (DecodeString mmr.Data).1)] ∧
          ∀ p ∈ posted events,
            p = (mmr, slackMessage (DecodeString mmr.Data).1) ∧
              slackMessage (DecodeString mmr.Data).1 ≠ []) := by
  cases hg : m.get with
  | none =>
    rw [iteration_get_failed _ _ _ _ hg] at h
    injection h with h1 h2
    subst h1 h2
    simp
  | some mmr =>
    cases hs : isStale fromTime mmr with
    | true => rw [iteration_stale _ _ _ _ _ hg hs] at h; cases h
    | false =>
      by_cases ht : slackMessage (DecodeString mmr.Data).1 = []
      · rw [iteration_no_match _ _ _ _ _ hg hs ht] at h; cases h
      · cases hp : m.postOk with
        | true => rw [iteration_posted _ _ _ _ _ hg hs ht hp] at h; cases h
        | false =>
          rw [iteration_post_failed _ _ _ _ _ hg hs ht hp] at h
          injection h with h1 h2
          subst h1 h2
          refine ⟨by simp, Or.inr ⟨mmr, rfl, hs, ?_⟩⟩
          simp [extracted_append, posted_append, extracted_decodeEvents, posted_decodeEvents,
            extracted, posted, ht]

theorem iteration_of_fresh (DecodeString : Bytes → Bytes × Bool) (fromTime newFromTime : Time)
    (m : Fetched) (mmr : Message) (h : m.get = some mmr) (hs : isStale fromTime mmr = false) :
    ∃ events, extracted events = [(mmr, (DecodeString mmr.Data).1)] ∧
      (iteration DecodeString fromTime newFromTime m =
          Step.next (advance newFromTime mmr) events ∨
        iteration DecodeString fromTime newFromTime m = Step.fatal events Exit.postFailed) := by
  by_cases ht : slackMessage (DecodeString mmr.Data).1 = []
  · exact ⟨_, extracted_decodeEvents _ _, Or.inl (iteration_no_match _ _ _ _ _ h hs ht)⟩
  · refine ⟨decodeEvents mmr (DecodeString mmr.Data) ++
      [Event.post mmr (slackMessage (DecodeString mmr.Data).1)], ?_, ?_⟩
    · simp [extracted_append, extracted_decodeEvents, extracted]
    · cases hp : m.postOk with
      | true => exact Or.inl (iteration_posted _ _ _ _ _ h hs ht hp)
      | false => exact Or.inr (iteration_post_failed _ _ _ _ _ h hs ht hp)

theorem mem_posted_mainLoop (DecodeString : Bytes → Bytes × Bool) (fromTime : Time)
    (page : List Fetched) (newFromTime : Time) (p : Message × Bytes)
    (h : p ∈ posted (mainLoop DecodeString fromTime newFromTime page).events) :
    p.1 ∈ fetchedMessages page ∧ isStale fromTime p.1 = false ∧
      p.2 = slackMessage (DecodeString p.1.Data).1 ∧ p.2 ≠ [] := by
  induction page generalizing newFromTime with
  | nil => simp [mainLoop, posted] at h
  | cons m page ih =>
    rw [mainLoop] at h
    cases hit : iteration DecodeString fromTime newFromTime m with
    | stop => rw [hit] at h; simp [posted] at h
    | fatal events exit =>
      rw [hit] at h
      simp only [] at h
      rcases (iteration_fatal_inv _ _ _ _ _ _ hit).2 with he | ⟨mmr, hg, hs, _, hp⟩
      · subst he; simp [posted] at h
      · obtain ⟨rfl, hne⟩ := hp p h
        exact ⟨by simp [fetchedMessages_cons_some m mmr page hg], hs, rfl, hne⟩
    | next newFromTime1 events =>
      rw [hit] at h
      simp only [posted_append, List.mem_append] at h
      obtain ⟨mmr, hg, hs, _, _, hp⟩ := iteration_next_inv _ _ _ _ _ _ hit
      rcases h with h | h
      · obtain ⟨rfl, hne⟩ := hp p h
        exact ⟨by simp [fetchedMessages_cons_some m mmr page hg], hs, rfl, hne⟩
      · obtain ⟨h1, h2⟩ := ih newFromTime1 h
        exact ⟨by simp [fetchedMessages_cons_some m mmr page hg, h1], h2⟩

/-! ## The candidate watermark along the loop -/

theorem mainLoop_seconds_monotone (DecodeString : Bytes → Bytes × Bool) (fromTime : Time)
    (page : List Fetched) (newFromTime : Time)
    (h0 : fitsInt64 (fromTime.Unix * 1000))
    (hpage : ∀ mmr ∈ fetchedMessages page,
      fitsInt64 (fromTime.Unix * 1000 - mmr.InternalDate))
    (hle : fromTime.Unix ≤ newFromTime.Unix)
    (hns : newFromTime = fromTime ∨ newFromTime.nsec = 0) :
    fromTime.Unix ≤ (mainLoop DecodeString fromTime newFromTime page).newFromTime.Unix ∧
      ((mainLoop DecodeString fromTime newFromTime page).newFromTime = fromTime ∨
        (mainLoop DecodeString fromTime newFromTime page).newFromTime.nsec = 0) := by
  induction page generalizing newFromTime with
  | nil => exact ⟨hle, hns⟩
  | cons m page ih =>
    rw [mainLoop]
    cases hit : iteration DecodeString fromTime newFromTime m with
    | stop => exact ⟨hle, hns⟩
    | fatal events exit => exact ⟨hle, hns⟩
    | next newFromTime1 events =>
      obtain ⟨mmr, hg, hs, hadv, _⟩ := iteration_next_inv _ _ _ _ _ _ hit
      have hmem : mmr ∈ fetchedMessages (m :: page) := by
        simp [fetchedMessages_cons_some m mmr page hg]
      rw [isStale_of_exact _ _ h0 (hpage mmr hmem)] at hs
      simp only [decide_eq_false_iff_not, not_lt] at hs
      have hpage1 : ∀ x ∈ fetchedMessages page,
          fitsInt64 (fromTime.Unix * 1000 - x.InternalDate) := fun x hx =>
        hpage x (by simp [fetchedMessages_cons_some m mmr page hg, hx])
      apply ih newFromTime1 hpage1
      · rcases advance_cases newFromTime mmr with h | h
        · rw [hadv, h]; exact hle
        · rw [hadv, h]
          simp only [Time.Unix] at hs ⊢
          rw [tdiv_thousand]
          split <;> omega
      · rcases advance_cases newFromTime mmr with h | h
        · rw [hadv, h]; exact hns
        · rw [hadv, h]; right; rfl

theorem mainLoop_newFromTime_cases (DecodeString : Bytes → Bytes × Bool) (fromTime : Time)
    (page : List Fetched) (newFromTime : Time) :
    (mainLoop DecodeString fromTime newFromTime page).newFromTime = newFromTime ∨
      ∃ mmr ∈ fetchedMessages page,
        (mainLoop DecodeString fromTime newFromTime page).newFromTime =
          ⟨mmr.InternalDate.tdiv 1000, 0⟩ := by
  induction page generalizing newFromTime with
  | nil => left; rfl
  | cons m page ih =>
    rw [mainLoop]
    cases hit : iteration DecodeString fromTime newFromTime m with
    | stop => left; rfl
    | fatal events exit => left; rfl
    | next newFromTime1 events =>
      obtain ⟨mmr, hg, _, hadv, _⟩ := iteration_next_inv _ _ _ _ _ _ hit
      simp only []
      rcases ih newFromTime1 with h | ⟨x, hx, h⟩
      · rw [h, hadv]
        rcases advance_cases newFromTime mmr with h1 | h1
        · left; exact h1
        · right
          exact ⟨mmr, by simp [fetchedMessages_cons_some m mmr page hg], h1⟩
      · right
        exact ⟨x, by simp [fetchedMessages_cons_some m mmr page hg, hx], h⟩

theorem maxSeconds_cons (sec : Int) (mmr : Message) (messages : List Message) :
    maxSeconds sec (mmr :: messages) = maxSeconds (max sec (mmr.InternalDate / 1000)) messages := by
  simp [maxSeconds]

theorem mainLoop_max_seconds (DecodeString : Bytes → Bytes × Bool) (fromTime : Time)
    (page : List Fetched) (newFromTime : Time)
    (h0 : fitsInt64 (fromTime.Unix * 1000))
    (hpage : ∀ mmr ∈ fetchedMessages page,
      0 ≤ mmr.InternalDate ∧ fitsInt64 mmr.InternalDate ∧
        fitsInt64 (fromTime.Unix * 1000 - mmr.InternalDate) ∧
        fitsInt64 (mmr.InternalDate - fromTime.Unix * 1000))
    (hle : fromTime.Unix ≤ newFromTime.Unix)
    (hub : newFromTime.Unix * 1000 < 2 ^ 63)
    (hfin : (mainLoop DecodeString fromTime newFromTime page).exit = Exit.finished) :
    (mainLoop DecodeString fromTime newFromTime page).newFromTime.Unix =
      maxSeconds newFromTime.Unix
        ((extracted (mainLoop DecodeString fromTime newFromTime page).events).map Prod.fst) := by
  induction page generalizing newFromTime with
  | nil => simp [mainLoop, extracted, maxSeconds]
  | cons m page ih =>
    rw [mainLoop] at hfin ⊢
    cases hit : iteration DecodeString fromTime newFromTime m with
    | stop => simp [extracted, maxSeconds]
    | fatal events exit =>
      rw [hit] at hfin
      exact absurd hfin (iteration_fatal_inv _ _ _ _ _ _ hit).1
    | next newFromTime1 events =>
      obtain ⟨mmr, hg, hs, hadv, hex, _⟩ := iteration_next_inv _ _ _ _ _ _ hit
      have hmem : mmr ∈ fetchedMessages (m :: page) := by
        simp [fetchedMessages_cons_some m mmr page hg]
      obtain ⟨hd0, hd1, hd2, hd3⟩ := hpage mmr hmem
      rw [isStale_of_exact _ _ h0 hd2] at hs
      simp only [decide_eq_false_iff_not, not_lt] at hs
      have hpage1 : ∀ x ∈ fetchedMessages page,
          0 ≤ x.InternalDate ∧ fitsInt64 x.InternalDate ∧
            fitsInt64 (fromTime.Unix * 1000 - x.InternalDate) ∧
            fitsInt64 (x.InternalDate - fromTime.Unix * 1000) := fun x hx =>
        hpage x (by simp [fetchedMessages_cons_some m mmr page hg, hx])
      unfold fitsInt64 at h0 hd1 hd2 hd3
      have hf1 : fitsInt64 (newFromTime.Unix * 1000) := by unfold fitsInt64; omega
      have hf2 : fitsInt64 (mmr.InternalDate - newFromTime.Unix * 1000) := by
        unfold fitsInt64; omega
      have hsec : newFromTime1.Unix = max newFromTime.Unix (mmr.InternalDate / 1000) := by
        rw [hadv, advance_of_exact _ _ hf1 hf2]
        split
        · simp only [Time.Unix]
          rw [tdiv_thousand, if_pos hd0]
          simp only [Time.Unix] at *
          omega
        · simp only [Time.Unix] at *
          omega
      simp only [extracted_append, hex, List.map_append, List.map_cons, List.map_nil,
        List.singleton_append, maxSeconds_cons]
      rw [hit] at hfin
      rw [← hsec]
      apply ih newFromTime1 hpage1
      · rw [hsec]; simp only [Time.Unix] at *; omega
      · rw [hsec]; simp only [Time.Unix] at *; omega
      · exact hfin

/-! ## Claims on the run -/

set_option maxRecDepth 100000

/-- C1, refuted as stated. A watermark of 100.5 s and a message delivered at
100.001 s: the run succeeds and saves 100 s, an earlier point in time than the
watermark it loaded. A watermark of 1 s and the delivery timestamp `-2^63`:
the subtraction of line 164 wraps around, the message counts as not stale and
the run saves a time long before the watermark. -/
theorem watermark_monotone_counterexample :
    ((main urlDecodeString ⟨100, 500000000⟩ (some [⟨some ⟨100001, []⟩, true⟩])).written =
        some ⟨100, 0⟩ ∧
      (⟨100, 0⟩ : Time).instant < (⟨100, 500000000⟩ : Time).instant) ∧
    ((main urlDecodeString ⟨1, 0⟩ (some [⟨some ⟨-2 ^ 63, []⟩, true⟩])).written =
        some ⟨-9223372036854775, 0⟩ ∧
      (⟨-9223372036854775, 0⟩ : Time).instant < (⟨1, 0⟩ : Time).instant) := by
  decide

/-- C1, amended. For every loaded watermark `W` and every page on which the
subtraction of line 164 is exact in int64, a run that completes saves a
watermark whose whole-second value is at least that of `W`; the saved
watermark is `W` itself or has no sub-second part, so it is at least `W` as a
point in time whenever `W` has no sub-second part. -/
theorem watermark_seconds_monotone (DecodeString : Bytes → Bytes × Bool) (fromTime : Time)
    (page : List Fetched) (saved : Time)
    (hexact : TimeDiffExact fromTime page)
    (hsaved : (main DecodeString fromTime (some page)).written = some saved) :
    fromTime.Unix ≤ saved.Unix ∧ (saved = fromTime ∨ saved.nsec = 0) ∧
      (fromTime.nsec = 0 → fromTime.instant ≤ saved.instant) := by
  have hinv := mainLoop_seconds_monotone DecodeString fromTime page fromTime hexact.1 hexact.2
    (le_refl _) (Or.inl rfl)
  have hs : (mainLoop DecodeString fromTime fromTime page).newFromTime = saved := by
    unfold main at hsaved
    simp only [] at hsaved
    split at hsaved
    · simpa using hsaved
    · simp at hsaved
  rw [hs] at hinv
  refine ⟨hinv.1, hinv.2, fun h0 => ?_⟩
  have := hinv.1
  simp only [Time.instant, Time.Unix, h0] at this ⊢
  have hn : (0 : Int) ≤ (saved.nsec : Int) := Int.ofNat_nonneg _
  simp only [Nat.cast_zero, add_zero]
  omega

/-- Witness of amended C1: from 100.5 s with messages at 103.2 s and 101 s the
run saves 103 s. -/
theorem watermark_seconds_monotone_witness :
    TimeDiffExact ⟨100, 500000000⟩ [⟨some ⟨103200, []⟩, true⟩, ⟨some ⟨101000, []⟩, true⟩] ∧
      (main urlDecodeString ⟨100, 500000000⟩
        (some [⟨some ⟨103200, []⟩, true⟩, ⟨some ⟨101000, []⟩, true⟩])).written =
        some ⟨103, 0⟩ ∧
      (100 : Int) ≤ (103 : Int) :=
  ⟨by decide, by decide,
    (watermark_seconds_monotone urlDecodeString ⟨100, 500000000⟩
      [⟨some ⟨103200, []⟩, true⟩, ⟨some ⟨101000, []⟩, true⟩] ⟨103, 0⟩ (by decide)
      (by decide)).1⟩

/-- C2, refuted as stated. From the watermark 0 s a page with one matching
message delivered at 5 s is notified and 5 s is saved; the second run, loading
5 s, finds `timeDiff = 0`, which is not `> 0`, and posts the same text for the
same message again. With the watermark 1 s and the delivery timestamp
`1000 - 2^63` the subtraction of line 164 wraps around: the message, older
than the watermark, is notified, the run saves 1 s again and the second run
notifies it again. -/
theorem never_renotify_counterexample :
    ((main urlDecodeString ⟨0, 0⟩ (some [⟨some ⟨5000, pickupData⟩, true⟩])).written =
        some ⟨5, 0⟩ ∧
      (⟨5000, pickupData⟩, pickupText) ∈
        posted (main urlDecodeString ⟨0, 0⟩ (some [⟨some ⟨5000, pickupData⟩, true⟩])).events ∧
      (⟨5000, pickupData⟩, pickupText) ∈
        posted (main urlDecodeString ⟨5, 0⟩ (some [⟨some ⟨5000, pickupData⟩, true⟩])).events) ∧
    ((main urlDecodeString ⟨1, 0⟩ (some [⟨some ⟨1000 - 2 ^ 63, pickupData⟩, true⟩])).written =
        some ⟨1, 0⟩ ∧
      (1000 - 2 ^ 63 : Int) < (⟨1, 0⟩ : Time).Unix * 1000 ∧
      (⟨1000 - 2 ^ 63, pickupData⟩, pickupText) ∈
        posted (main urlDecodeString ⟨1, 0⟩
          (some [⟨some ⟨1000 - 2 ^ 63, pickupData⟩, true⟩])).events) := by
  decide

/-- C2, amended. For every watermark `W` and page whose whole-second watermark
and delivery timestamps lie within `±2^62` ms: if a first run succeeds from
`W` and saves `W'`, a second run that loads `W'` and sees the same messages
calls the notifier only for messages delivered in the whole second `W'.Unix()`
or later; so no message the first run notified on with a delivery timestamp
below `W'.Unix()*1000` is notified again. -/
theorem no_renotify_below_saved_second (DecodeString : Bytes → Bytes × Bool)
    (fromTime saved : Time) (page page2 : List Fetched)
    (hrange : WithinRange fromTime page)
    (hsaved : (main DecodeString fromTime (some page)).written = some saved)
    (hsame : page2.map Fetched.get = page.map Fetched.get) :
    (∀ p ∈ posted (main DecodeString saved (some page2)).events,
        saved.Unix * 1000 ≤ p.1.InternalDate) ∧
      ∀ p ∈ posted (main DecodeString fromTime (some page)).events,
        p.1.InternalDate < saved.Unix * 1000 →
          ∀ text, (p.1, text) ∉ posted (main DecodeString saved (some page2)).events := by
  have hev : ∀ (W : Time) (l : List Fetched),
      (main DecodeString W (some l)).events = (mainLoop DecodeString W W l).events := by
    intro W l
    unfold main
    simp only []
    split <;> rfl
  have hfetched : fetchedMessages page2 = fetchedMessages page := by
    have h : ∀ l : List Fetched, fetchedMessages l = (l.map Fetched.get).filterMap id := by
      intro l
      simp [fetchedMessages, List.filterMap_map]
    rw [h, h, hsame]
  have hs : (mainLoop DecodeString fromTime fromTime page).newFromTime = saved := by
    unfold main at hsaved
    simp only [] at hsaved
    split at hsaved
    · simpa using hsaved
    · simp at hsaved
  have hsaved_range : -2 ^ 62 ≤ saved.Unix * 1000 ∧ saved.Unix * 1000 ≤ 2 ^ 62 := by
    rcases mainLoop_newFromTime_cases DecodeString fromTime page fromTime with h | ⟨mmr, hm, h⟩
    · rw [← hs, h]; exact hrange.1
    · rw [← hs, h]
      have := hrange.2 mmr hm
      simp only [Time.Unix]
      rw [tdiv_thousand]
      split <;> omega
  have hexact : TimeDiffExact saved page2 := by
    refine ⟨by unfold fitsInt64; omega, fun mmr hm => ?_⟩
    rw [hfetched] at hm
    have := hrange.2 mmr hm
    unfold fitsInt64
    omega
  have hfirst : ∀ p ∈ posted (main DecodeString saved (some page2)).events,
      saved.Unix * 1000 ≤ p.1.InternalDate := by
    intro p hp
    rw [hev] at hp
    obtain ⟨hmem, hst, _, _⟩ := mem_posted_mainLoop _ _ _ _ _ hp
    rw [isStale_of_exact _ _ hexact.1 (hexact.2 _ hmem)] at hst
    simpa using hst
  refine ⟨hfirst, fun p _ hlt text hmem => ?_⟩
  have := hfirst (p.1, text) hmem
  simp only [] at this
  omega

/-- Witness of amended C2: from 0 s the run notifies on the messages delivered
at 7 s and at 3 s and saves 7 s; the second run does not notify on the message
delivered at 3 s. -/
theorem no_renotify_below_saved_second_witness :
    (main urlDecodeString ⟨0, 0⟩
        (some [⟨some ⟨7000, pickupData⟩, true⟩, ⟨some ⟨3000, pickupData⟩, true⟩])).written =
        some ⟨7, 0⟩ ∧
      (⟨3000, pickupData⟩, pickupText) ∈
        posted (main urlDecodeString ⟨0, 0⟩
          (some [⟨some ⟨7000, pickupData⟩, true⟩, ⟨some ⟨3000, pickupData⟩, true⟩])).events ∧
      (⟨3000, pickupData⟩, pickupText) ∉
        posted (main urlDecodeString ⟨7, 0⟩
          (some [⟨some ⟨7000, pickupData⟩, true⟩, ⟨some ⟨3000, pickupData⟩, true⟩])).events :=
  ⟨by decide, by decide,
    (no_renotify_below_saved_second urlDecodeString ⟨0, 0⟩ ⟨7, 0⟩
      [⟨some ⟨7000, pickupData⟩, true⟩, ⟨some ⟨3000, pickupData⟩, true⟩]
      [⟨some ⟨7000, pickupData⟩, true⟩, ⟨some ⟨3000, pickupData⟩, true⟩]
      (by decide) (by decide) rfl).2 (⟨3000, pickupData⟩, pickupText) (by decide) (by decide)
      pickupText⟩

/-- C3, refuted as stated. (1) Watermark 100.5 s, one message delivered at
100.2 s: it is strictly older than the watermark, yet it is passed to
extraction, because line 164 compares with the whole second 100 s. (2) No
message older than the watermark, the post for the first message fails: the
second message is never passed to extraction. (3) No message older than the
watermark, the fetch of the first entry fails: the second message is never
passed to extraction. (4) Watermark 1 s and the delivery timestamp `-2^63`:
the subtraction of line 164 wraps around and the message, older than the
watermark, is passed to extraction. -/
theorem stop_on_stale_counterexample :
    ((⟨100200, pickupData⟩ : Message).instant < (⟨100, 500000000⟩ : Time).instant ∧
      extracted (main urlDecodeString ⟨100, 500000000⟩
        (some [⟨some ⟨100200, pickupData⟩, true⟩])).events =
        [(⟨100200, pickupData⟩, pickupBody)]) ∧
    ((⟨0, 0⟩ : Time).instant ≤ (⟨5000, pickupData⟩ : Message).instant ∧
      (⟨0, 0⟩ : Time).instant ≤ (⟨4000, pickupData⟩ : Message).instant ∧
      extracted (main urlDecodeString ⟨0, 0⟩
        (some [⟨some ⟨5000, pickupData⟩, false⟩, ⟨some ⟨4000, pickupData⟩, true⟩])).events =
        [(⟨5000, pickupData⟩, pickupBody)]) ∧
    (extracted (main urlDecodeString ⟨0, 0⟩
        (some [⟨none, true⟩, ⟨some ⟨4000, pickupData⟩, true⟩])).events = []) ∧
    ((⟨-2 ^ 63, pickupData⟩ : Message).instant < (⟨1, 0⟩ : Time).instant ∧
      extracted (main urlDecodeString ⟨1, 0⟩
        (some [⟨some ⟨-2 ^ 63, pickupData⟩, true⟩])).events =
        [(⟨-2 ^ 63, pickupData⟩, pickupBody)]) := by
  decide

theorem passes_of_deliveredFresh (DecodeString : Bytes → Bytes × Bool) (fromTime : Time)
    (page : List Fetched) (hexact : TimeDiffExact fromTime page) (m : Fetched) (hm : m ∈ page)
    (h : deliveredFresh DecodeString fromTime m = true) :
    passes DecodeString fromTime m = true := by
  unfold deliveredFresh at h
  unfold passes
  cases hg : m.get with
  | none => simp [hg] at h
  | some mmr =>
    simp only [hg, Bool.and_eq_true, decide_eq_true_eq] at h ⊢
    have hmem : mmr ∈ fetchedMessages page := by
      unfold fetchedMessages
      exact List.mem_filterMap.mpr ⟨m, hm, hg⟩
    rw [isStale_of_exact _ _ hexact.1 (hexact.2 mmr hmem)]
    refine ⟨?_, h.2⟩
    simp only [Bool.not_eq_true', decide_eq_false_iff_not, not_lt]
    exact h.1

theorem main_events (DecodeString : Bytes → Bytes × Bool) (fromTime : Time)
    (page : List Fetched) :
    (main DecodeString fromTime (some page)).events =
      (mainLoop DecodeString fromTime fromTime page).events := by
  unfold main
  simp only []
  split <;> rfl

theorem main_written_of_not_finished (DecodeString : Bytes → Bytes × Bool) (fromTime : Time)
    (page : List Fetched)
    (h : (mainLoop DecodeString fromTime fromTime page).exit ≠ Exit.finished) :
    (main DecodeString fromTime (some page)).written = none := by
  unfold main
  cases hx : (mainLoop DecodeString fromTime fromTime page).exit with
  | finished => exact absurd hx h
  | getFailed => simp [hx]
  | postFailed => simp [hx]

/-- C3, amended. For every watermark `W` and every page on which the
subtraction of line 164 is exact in int64, if the first `k-1` entries are
fetched, have a delivery timestamp not below the whole second of `W`
(`InternalDate ≥ W.Unix()*1000`) and their posts, where extraction gives a
text, succeed, then: when entry `k` is fetched with a timestamp below
`W.Unix()*1000`, exactly messages `1..k-1` are passed to extraction, each with
the bytes `DecodeString` returned for it, and none from `k` onward; when the
page ends after them, every message of the page is passed to extraction; and
when entry `k` is fetched with a delivery time equal to `W`, it is passed to
extraction. -/
theorem stop_on_stale (DecodeString : Bytes → Bytes × Bool) (fromTime : Time)
    (pre rest : List Fetched)
    (hexact : TimeDiffExact fromTime (pre ++ rest))
    (hpre : ∀ m ∈ pre, deliveredFresh DecodeString fromTime m = true) :
    ((∃ m mmr tail, rest = m :: tail ∧ m.get = some mmr ∧
          mmr.InternalDate < fromTime.Unix * 1000) →
        extracted (main DecodeString fromTime (some (pre ++ rest))).events =
          extractionInputs DecodeString pre) ∧
      (rest = [] →
        extracted (main DecodeString fromTime (some (pre ++ rest))).events =
          extractionInputs DecodeString (pre ++ rest)) ∧
      (∀ m mmr tail, rest = m :: tail → m.get = some mmr →
        mmr.instant = fromTime.instant →
        (mmr, (DecodeString mmr.Data).1) ∈
          extracted (main DecodeString fromTime (some (pre ++ rest))).events) := by
  have hpass : ∀ m ∈ pre, passes DecodeString fromTime m = true := fun m hm =>
    passes_of_deliveredFresh DecodeString fromTime (pre ++ rest) hexact m
      (List.mem_append_left _ hm) (hpre m hm)
  have hloop := mainLoop_append_of_passes DecodeString fromTime pre rest hpass fromTime
  refine ⟨?_, ?_, ?_⟩
  · rintro ⟨m, mmr, tail, rfl, hg, hlt⟩
    have hmem : mmr ∈ fetchedMessages (pre ++ m :: tail) := by
      unfold fetchedMessages
      exact List.mem_filterMap.mpr ⟨m, by simp, hg⟩
    have hs : isStale fromTime mmr = true := by
      rw [isStale_of_exact _ _ hexact.1 (hexact.2 mmr hmem)]
      simpa using hlt
    rw [main_events, hloop, mainLoop, iteration_stale _ _ _ _ _ hg hs]
    simp [extracted_append, extracted_passedEvents, extracted]
  · rintro rfl
    rw [main_events, hloop]
    simp [mainLoop, extracted_passedEvents]
  · rintro m mmr tail rfl hg heq
    have hmem : mmr ∈ fetchedMessages (pre ++ m :: tail) := by
      unfold fetchedMessages
      exact List.mem_filterMap.mpr ⟨m, by simp, hg⟩
    have hs : isStale fromTime mmr = false := by
      rw [isStale_of_exact _ _ hexact.1 (hexact.2 mmr hmem)]
      simp only [Message.instant, Time.instant, Time.Unix] at heq ⊢
      have hn : (0 : Int) ≤ (fromTime.nsec : Int) := Int.ofNat_nonneg _
      simp only [decide_eq_false_iff_not, not_lt]
      omega
    rw [main_events, hloop, mainLoop]
    simp only [extracted_append, List.mem_append]
    right
    obtain ⟨events, hex, hit | hit⟩ :=
      iteration_of_fresh DecodeString fromTime (advanceAll fromTime pre) m mmr hg hs
    · rw [hit]; simp [extracted_append, hex]
    · rw [hit]; simp [hex]

/-- Witness of amended C3: watermark 10 s, messages at 12 s and at 10 s (equal
to the watermark), then one at 9.999 s and one more behind it: exactly the
first two are passed to extraction. -/
theorem stop_on_stale_witness :
    TimeDiffExact ⟨10, 0⟩
        ([⟨some ⟨12000, pickupData⟩, true⟩, ⟨some ⟨10000, noticeData⟩, true⟩] ++
          [⟨some ⟨9999, pickupData⟩, true⟩, ⟨some ⟨20000, pickupData⟩, true⟩]) ∧
      extractionInputs urlDecodeString
          [⟨some ⟨12000, pickupData⟩, true⟩, ⟨some ⟨10000, noticeData⟩, true⟩] =
        [(⟨12000, pickupData⟩, pickupBody), (⟨10000, noticeData⟩, noticeBody)] ∧
      extracted (main urlDecodeString ⟨10, 0⟩
          (some ([⟨some ⟨12000, pickupData⟩, true⟩, ⟨some ⟨10000, noticeData⟩, true⟩] ++
            [⟨some ⟨9999, pickupData⟩, true⟩, ⟨some ⟨20000, pickupData⟩, true⟩]))).events =
        extractionInputs urlDecodeString
          [⟨some ⟨12000, pickupData⟩, true⟩, ⟨some ⟨10000, noticeData⟩, true⟩] :=
  ⟨by decide, by decide,
    (stop_on_stale urlDecodeString ⟨10, 0⟩
      [⟨some ⟨12000, pickupData⟩, true⟩, ⟨some ⟨10000, noticeData⟩, true⟩]
      [⟨some ⟨9999, pickupData⟩, true⟩, ⟨some ⟨20000, pickupData⟩, true⟩]
      (by decide) (by decide)).1 ⟨_, _, _, rfl, rfl, by decide⟩⟩

/-- C4, refuted as stated. The body of the message is the encoding of a
pickup-time-change mail followed by `!`: the decoder returns the decoded mail
together with an error, the message is not stale, and the run prints the
error, runs the extraction on the returned bytes and calls the notifier with
the extracted text. -/
theorem decode_failure_counterexample :
    urlDecodeString corruptData = (pickupBody, true) ∧
      isStale ⟨0, 0⟩ ⟨5000, corruptData⟩ = false ∧
      (main urlDecodeString ⟨0, 0⟩ (some [⟨some ⟨5000, corruptData⟩, true⟩])).events =
        [Event.decodeError ⟨5000, corruptData⟩,
          Event.extraction ⟨5000, corruptData⟩ pickupBody,
          Event.post ⟨5000, corruptData⟩ pickupText] := by
  decide

/-- C4, amended. For every message that the loop reaches, that is not stale
and whose body fails decoding, the run prints the error and then runs the
extraction on the bytes the decoder returned; it calls the notifier exactly
when that extraction is not empty; the decode failure does not end the run:
unless that post fails, the run continues with the next message. -/
theorem decode_failure_still_extracts (DecodeString : Bytes → Bytes × Bool) (fromTime : Time)
    (pre : List Fetched) (m : Fetched) (mmr : Message) (rest : List Fetched)
    (hpre : ∀ x ∈ pre, passes DecodeString fromTime x = true)
    (hget : m.get = some mmr)
    (hfresh : isStale fromTime mmr = false)
    (herr : (DecodeString mmr.Data).2 = true) :
    (main DecodeString fromTime (some (pre ++ m :: rest))).events =
      passedEvents DecodeString pre ++
        Event.decodeError mmr :: Event.extraction mmr (DecodeString mmr.Data).1 ::
          (if slackMessage (DecodeString mmr.Data).1 = [] then
            (mainLoop DecodeString fromTime (advance (advanceAll fromTime pre) mmr) rest).events
          else
            Event.post mmr (slackMessage (DecodeString mmr.Data).1) ::
              (if m.postOk then
                (mainLoop DecodeString fromTime
                  (advance (advanceAll fromTime pre) mmr) rest).events
              else [])) := by
  rw [main_events, mainLoop_append_of_passes DecodeString fromTime pre (m :: rest) hpre fromTime]
  simp only []
  congr 1
  rw [mainLoop]
  by_cases ht : slackMessage (DecodeString mmr.Data).1 = []
  · rw [iteration_no_match _ _ _ _ _ hget hfresh ht]
    simp [decodeEvents, herr, ht]
  · cases hp : m.postOk with
    | true =>
      rw [iteration_posted _ _ _ _ _ hget hfresh ht hp]
      simp [decodeEvents, herr, ht]
    | false =>
      rw [iteration_post_failed _ _ _ _ _ hget hfresh ht hp]
      simp [decodeEvents, herr, ht]

/-- Witness of amended C4: a message with a corrupt body between two sound
ones; the error is printed, the decoded part is extracted and posted, and the
run goes on to the third message. -/
theorem decode_failure_still_extracts_witness :
    (urlDecodeString corruptData).2 = true ∧
      (main urlDecodeString ⟨0, 0⟩
        (some ([⟨some ⟨7000, helloData⟩, true⟩] ++
          ⟨some ⟨5000, corruptData⟩, true⟩ :: [⟨some ⟨3000, noticeData⟩, true⟩]))).events =
        [Event.extraction ⟨7000, helloData⟩ (str "hello"),
          Event.decodeError ⟨5000, corruptData⟩,
          Event.extraction ⟨5000, corruptData⟩ pickupBody,
          Event.post ⟨5000, corruptData⟩ pickupText,
          Event.extraction ⟨3000, noticeData⟩ noticeBody,
          Event.post ⟨3000, noticeData⟩ (str "■お届け予定日時: 10/6\nline2\nline3\nline4\n")] :=
  ⟨by decide,
    (decode_failure_still_extracts urlDecodeString ⟨0, 0⟩ [⟨some ⟨7000, helloData⟩, true⟩]
      ⟨some ⟨5000, corruptData⟩, true⟩ ⟨5000, corruptData⟩ [⟨some ⟨3000, noticeData⟩, true⟩]
      (by decide) rfl (by decide) (by decide)).trans (by decide)⟩

/-- C8, refuted as stated in its "only when" half. A body with marker M1 only,
whose one sub-marker line also contains the sub-marker of M2, gives an output
that is not empty and equals the Variant B windowed extraction of the same
body although M2 does not occur; a body with M1 only and no sub-marker line
gives the empty output, which is the Variant B extraction of that body too. -/
theorem dispatch_only_when_counterexample :
    (Contains onlyPickupBody markerPickupChange = true ∧
      Contains onlyPickupBody markerDeliveryNotice = false ∧
      slackMessage onlyPickupBody = str "■伝票番号 ■お届け予定日時: 10/6\n" ∧
      slackMessage onlyPickupBody = specVariantB (Split onlyPickupBody) 0) ∧
    (Contains bareMarkerBody markerPickupChange = true ∧
      Contains bareMarkerBody markerDeliveryNotice = false ∧
      slackMessage bareMarkerBody = [] ∧
      slackMessage bareMarkerBody = specVariantB (Split bareMarkerBody) 0) := by
  decide

/-- C8, amended. Template dispatch order: for every decoded body the
extractor's output is the Variant A extraction of the specification whenever
marker M1 occurs in the body (also when M2 occurs too, and also when that
extraction is empty), it is the Variant B windowed extraction of the
specification whenever M2 occurs and M1 does not, and it is empty when neither
occurs; the notifier is called only with the non-empty extraction of the
decoded body of its message, hence never for a body with neither marker. (The
output may equal the Variant B extraction on other bodies as well.) -/
theorem dispatch_order (DecodeString : Bytes → Bytes × Bool) (fromTime : Time)
    (list : Option (List Fetched)) (message : Bytes) :
    (Contains message markerPickupChange = true →
        slackMessage message = specVariantA (Split message)) ∧
      (Contains message markerPickupChange = false →
        Contains message markerDeliveryNotice = true →
        slackMessage message = specVariantB (Split message) 0) ∧
      (Contains message markerPickupChange = false →
        Contains message markerDeliveryNotice = false →
        slackMessage message = []) ∧
      ∀ p ∈ posted (main DecodeString fromTime list).events,
        p.2 = slackMessage (DecodeString p.1.Data).1 ∧ p.2 ≠ [] ∧
          (Contains (DecodeString p.1.Data).1 markerPickupChange = true ∨
            Contains (DecodeString p.1.Data).1 markerDeliveryNotice = true) := by
  refine ⟨fun h1 => ?_, fun h1 h2 => ?_, fun h1 h2 => by simp [slackMessage, h1, h2],
    fun p hp => ?_⟩
  · simp only [slackMessage, h1, if_true, pickupLoop, foldl_pickupStep, List.nil_append,
      specVariantA]
    rfl
  · simp only [slackMessage, h1, h2, if_true, Bool.false_eq_true, if_false, arrivalLoop,
      foldl_arrivalStep_spec, List.nil_append]
  · cases list with
    | none => simp [main, posted] at hp
    | some page =>
      rw [main_events] at hp
      obtain ⟨_, _, htext, hne⟩ := mem_posted_mainLoop _ _ _ _ _ hp
      refine ⟨htext, hne, ?_⟩
      by_contra hc
      simp only [not_or, Bool.not_eq_true] at hc
      apply hne
      rw [htext]
      simp [slackMessage, hc.1, hc.2]

/-- Witness of amended C8: on a body with both markers, a sub-marker line of
M1 and a sub-marker line of M2 the output is the Variant A extraction, which
differs from the Variant B extraction; on a body with both markers and no
sub-marker line of M1 the output is empty although the Variant B extraction is
not; and in a run over a mail with neither marker followed by a
pickup-time-change mail the one post carries the extraction of the second. -/
theorem dispatch_order_witness :
    (Contains bothMarkersPickupBody markerPickupChange = true ∧
      Contains bothMarkersPickupBody markerDeliveryNotice = true ∧
      specVariantA (Split bothMarkersPickupBody) = str "■伝票番号: 123-456\n" ∧
      specVariantB (Split bothMarkersPickupBody) 0 = str "■お届け予定日時: 10/6\nline2\n" ∧
      slackMessage bothMarkersPickupBody = specVariantA (Split bothMarkersPickupBody)) ∧
    (Contains bothMarkersBody markerPickupChange = true ∧
      specVariantB (Split bothMarkersBody) 0 = str "■お届け予定日時: 10/6\nline2\n" ∧
      specVariantA (Split bothMarkersBody) = [] ∧
      slackMessage bothMarkersBody = specVariantA (Split bothMarkersBody)) ∧
    (Contains noticeBody markerPickupChange = false ∧
      Contains noticeBody markerDeliveryNotice = true ∧
      specVariantB (Split noticeBody) 0 = str "■お届け予定日時: 10/6\nline2\nline3\nline4\n" ∧
      slackMessage noticeBody = specVariantB (Split noticeBody) 0) ∧
    (posted (main urlDecodeString ⟨0, 0⟩
        (some [⟨some ⟨7000, helloData⟩, true⟩, ⟨some ⟨5000, pickupData⟩, true⟩])).events =
        [(⟨5000, pickupData⟩, pickupText)] ∧
      pickupText = slackMessage (urlDecodeString pickupData).1 ∧ pickupText ≠ [] ∧
        (Contains (urlDecodeString pickupData).1 markerPickupChange = true ∨
          Contains (urlDecodeString pickupData).1 markerDeliveryNotice = true)) :=
  ⟨⟨by decide, by decide, by decide, by decide,
      (dispatch_order urlDecodeString ⟨0, 0⟩ none bothMarkersPickupBody).1 (by decide)⟩,
    ⟨by decide, by decide, by decide,
      (dispatch_order urlDecodeString ⟨0, 0⟩ none bothMarkersBody).1 (by decide)⟩,
    ⟨by decide, by decide, by decide,
      (dispatch_order urlDecodeString ⟨0, 0⟩ none noticeBody).2.1 (by decide) (by decide)⟩,
    ⟨by decide,
      (dispatch_order urlDecodeString ⟨0, 0⟩
        (some [⟨some ⟨7000, helloData⟩, true⟩, ⟨some ⟨5000, pickupData⟩, true⟩])
        []).2.2.2 (⟨5000, pickupData⟩, pickupText) (by decide)⟩⟩

/-- C9, refuted as stated. The notifier answers the post for the message
delivered at 7 s with HTTP status 500: the post has failed, but line 211
discards the response and `err` is nil, so the run goes on to the next
message, ends normally and writes 7 s; the persisted watermark is no longer
the loaded one. -/
theorem post_http_error_counterexample :
    (PostResult.response 500).failed = true ∧
      (main urlDecodeString ⟨0, 0⟩
        (some [answered (some ⟨7000, pickupData⟩) (PostResult.response 500),
          answered (some ⟨5000, noticeData⟩) (PostResult.response 200)])).events =
        [Event.extraction ⟨7000, pickupData⟩ pickupBody,
          Event.post ⟨7000, pickupData⟩ pickupText,
          Event.extraction ⟨5000, noticeData⟩ noticeBody,
          Event.post ⟨5000, noticeData⟩ (str "■お届け予定日時: 10/6\nline2\nline3\nline4\n")] ∧
      (main urlDecodeString ⟨0, 0⟩
        (some [answered (some ⟨7000, pickupData⟩) (PostResult.response 500),
          answered (some ⟨5000, noticeData⟩) (PostResult.response 200)])).written =
        some ⟨7, 0⟩ ∧
      persisted ⟨0, 0⟩ (main urlDecodeString ⟨0, 0⟩
        (some [answered (some ⟨7000, pickupData⟩) (PostResult.response 500),
          answered (some ⟨5000, noticeData⟩) (PostResult.response 200)])) ≠ ⟨0, 0⟩ := by
  decide

/-- C9, amended. No save on an aborted run: if the list query fails, or the
fetch of a message reached by the loop fails, or a notifier post fails with a
transport error (`http.Post` returns `err != nil`), the run ends without
writing `time.txt`, so the persisted watermark is still `W`, also when earlier
messages of the run had advanced the candidate. A post is taken as failed by
the run exactly when `http.Post` returns a transport error, whatever the
status of a response. -/
theorem no_save_on_abort (DecodeString : Bytes → Bytes × Bool) (fromTime : Time) :
    ((main DecodeString fromTime none).written = none ∧
        persisted fromTime (main DecodeString fromTime none) = fromTime) ∧
      (∀ (pre : List Fetched) (m : Fetched) (rest : List Fetched),
        (∀ x ∈ pre, passes DecodeString fromTime x = true) → m.get = none →
        (main DecodeString fromTime (some (pre ++ m :: rest))).written = none ∧
          persisted fromTime (main DecodeString fromTime (some (pre ++ m :: rest))) =
            fromTime) ∧
      (∀ (pre : List Fetched) (m : Fetched) (mmr : Message) (rest : List Fetched),
        (∀ x ∈ pre, passes DecodeString fromTime x = true) → m.get = some mmr →
        isStale fromTime mmr = false → slackMessage (DecodeString mmr.Data).1 ≠ [] →
        m.postOk = false →
        (main DecodeString fromTime (some (pre ++ m :: rest))).written = none ∧
          persisted fromTime (main DecodeString fromTime (some (pre ++ m :: rest))) =
            fromTime) ∧
      (∀ (get : Option Message) (r : PostResult),
        (answered get r).postOk = false ↔ r = PostResult.transportError) := by
  have hnone : ∀ page, (main DecodeString fromTime (some page)).written = none →
      (main DecodeString fromTime (some page)).written = none ∧
        persisted fromTime (main DecodeString fromTime (some page)) = fromTime := by
    intro page h
    exact ⟨h, by simp [persisted, h]⟩
  refine ⟨⟨rfl, rfl⟩, ?_, ?_, ?_⟩
  · intro pre m rest hpre hget
    apply hnone
    apply main_written_of_not_finished
    rw [mainLoop_append_of_passes DecodeString fromTime pre (m :: rest) hpre fromTime]
    simp [mainLoop, iteration_get_failed _ _ _ _ hget]
  · intro pre m mmr rest hpre hget hfresh htext hpost
    apply hnone
    apply main_written_of_not_finished
    rw [mainLoop_append_of_passes DecodeString fromTime pre (m :: rest) hpre fromTime]
    simp [mainLoop, iteration_post_failed _ _ _ _ _ hget hfresh htext hpost]
  · intro get r
    cases r <;> simp [answered, PostResult.errIsNil]

/-- Witness of amended C9: the first message advances the candidate to 7 s,
the post for the second message ends in a transport error, and nothing is
written. -/
theorem no_save_on_abort_witness :
    advanceAll ⟨0, 0⟩ [answered (some ⟨7000, pickupData⟩) (PostResult.response 200)] =
        ⟨7, 0⟩ ∧
      ((main urlDecodeString ⟨0, 0⟩
          (some ([answered (some ⟨7000, pickupData⟩) (PostResult.response 200)] ++
            answered (some ⟨6000, pickupData⟩) PostResult.transportError :: []))).written =
          none ∧
        persisted ⟨0, 0⟩ (main urlDecodeString ⟨0, 0⟩
          (some ([answered (some ⟨7000, pickupData⟩) (PostResult.response 200)] ++
            answered (some ⟨6000, pickupData⟩) PostResult.transportError :: []))) = ⟨0, 0⟩) :=
  ⟨by decide,
    (no_save_on_abort urlDecodeString ⟨0, 0⟩).2.2.1
      [answered (some ⟨7000, pickupData⟩) (PostResult.response 200)]
      (answered (some ⟨6000, pickupData⟩) PostResult.transportError) ⟨6000, pickupData⟩ []
      (by decide) rfl (by decide) (by decide) rfl⟩

/-- C10. Candidate watermark at second granularity: for every watermark `W`
and every page with non-negative delivery timestamps and no int64 overflow, in
any order, the whole-second value saved by a successful run is the maximum of
`W.Unix()` and of `floor(d/1000)` over the timestamps `d` of the messages the
loop processed before it stopped (the message at which it stops does not
change that maximum); hence it is at least `W.Unix()`, and the saved time is
`W` itself or has no sub-second part. -/
theorem candidate_is_max_second (DecodeString : Bytes → Bytes × Bool) (fromTime : Time)
    (page : List Fetched) (saved : Time)
    (hno : NoOverflow fromTime page)
    (hsaved : (main DecodeString fromTime (some page)).written = some saved) :
    saved.Unix =
        maxSeconds fromTime.Unix
          ((extracted (main DecodeString fromTime (some page)).events).map Prod.fst) ∧
      fromTime.Unix ≤ saved.Unix ∧ (saved = fromTime ∨ saved.nsec = 0) ∧
      ∀ mmr ∈ fetchedMessages page, isStale fromTime mmr = true →
        maxSeconds saved.Unix [mmr] = saved.Unix := by
  have hexit : (mainLoop DecodeString fromTime fromTime page).exit = Exit.finished ∧
      (mainLoop DecodeString fromTime fromTime page).newFromTime = saved := by
    unfold main at hsaved
    cases hx : (mainLoop DecodeString fromTime fromTime page).exit with
    | finished => simp [hx] at hsaved; exact ⟨rfl, hsaved⟩
    | getFailed => simp [hx] at hsaved
    | postFailed => simp [hx] at hsaved
  have hmax := mainLoop_max_seconds DecodeString fromTime page fromTime hno.1 hno.2
    (le_refl _) hno.1.2 hexit.1
  have hmono := mainLoop_seconds_monotone DecodeString fromTime page fromTime hno.1
    (fun mmr hm => (hno.2 mmr hm).2.2.1) (le_refl _) (Or.inl rfl)
  rw [hexit.2] at hmax hmono
  refine ⟨by rw [main_events]; exact hmax, hmono.1, hmono.2, fun mmr hm hs => ?_⟩
  rw [isStale_of_exact _ _ hno.1 (hno.2 mmr hm).2.2.1] at hs
  simp only [decide_eq_true_eq] at hs
  have := hmono.1
  simp only [maxSeconds, List.foldl_cons, List.foldl_nil, Time.Unix] at *
  omega

/-- Witness of C10: watermark 100.5 s and an unordered page; the loop
processes the messages at 103.2 s, 105.999 s and 101 s, stops at the one at
99 s, and saves 105 s. -/
theorem candidate_is_max_second_witness :
    NoOverflow ⟨100, 500000000⟩
        [⟨some ⟨103200, []⟩, true⟩, ⟨some ⟨105999, []⟩, true⟩, ⟨some ⟨101000, []⟩, true⟩,
          ⟨some ⟨99000, []⟩, true⟩, ⟨some ⟨200000, []⟩, true⟩] ∧
      (main urlDecodeString ⟨100, 500000000⟩
        (some [⟨some ⟨103200, []⟩, true⟩, ⟨some ⟨105999, []⟩, true⟩,
          ⟨some ⟨101000, []⟩, true⟩, ⟨some ⟨99000, []⟩, true⟩,
          ⟨some ⟨200000, []⟩, true⟩])).written = some ⟨105, 0⟩ ∧
      (105 : Int) =
        maxSeconds 100
          ((extracted (main urlDecodeString ⟨100, 500000000⟩
            (some [⟨some ⟨103200, []⟩, true⟩, ⟨some ⟨105999, []⟩, true⟩,
              ⟨some ⟨101000, []⟩, true⟩, ⟨some ⟨99000, []⟩, true⟩,
              ⟨some ⟨200000, []⟩, true⟩])).events).map Prod.fst) :=
  ⟨by decide, by decide,
    (candidate_is_max_second urlDecodeString ⟨100, 500000000⟩
      [⟨some ⟨103200, []⟩, true⟩, ⟨some ⟨105999, []⟩, true⟩, ⟨some ⟨101000, []⟩, true⟩,
        ⟨some ⟨99000, []⟩, true⟩, ⟨some ⟨200000, []⟩, true⟩] ⟨105, 0⟩ (by decide)
      (by decide)).1⟩

end Gmail2Slack
